import Mathlib

/-!
Verification of the Sequencer plugin (src/code.js, compliance-first v2 section).

The development shallowly embeds the v2 part of `src/code.js` (the code after
the version separator, i.e. the compliance-first design): the increment engine
(`incrementNumber`, `incrementLetter`, `compareValues`), the node helpers
(plugin-data links, duplicate detection, linked-node search), the selection
analyzer, and the `figma.ui.onmessage` handlers (`create-sequence`,
`delete-sequence`, `link-and-stamp`, `stamp`, `unlink`, `relink`, `reset`,
`select-sequence`, `close`).

Modelling conventions:
- JS strings are Lean `String` (a list of chars); machine floats never arise
  on the verified paths: `parseInt` is modelled exactly as an `Option Int`
  (`none` = NaN), with its leading-whitespace / sign / digit-run behaviour.
- `getPluginData` of an unset key returns `""` in Figma, so node link fields
  are plain strings with `""` as the unset sentinel, exactly as the code
  tests them for truthiness.
- `Date.now()` and `generateId()` are nondeterministic inputs of the host;
  they are threaded as explicit message parameters.
- `String.prototype.localeCompare` on the plugin's value strings (ASCII
  digits and uppercase letters) is character-code lexicographic comparison;
  only its sign is ever used.
- The document page is the node tree; handlers mutate the selected node both
  in the page tree and in the selection (they alias the same object in JS).
-/

namespace Sequencer

/-- The `type` field of a sequence: the string `"number"` or `"letter"`. -/
inductive SeqType where
  | number : SeqType
  | letter : SeqType
deriving DecidableEq, Repr

/-- The `mode` field of a sequence: the string `"compliance"` or `"design"`. -/
inductive SeqMode where
  | compliance : SeqMode
  | design : SeqMode
deriving DecidableEq, Repr

/-- A persisted sequence record (v2 schema). `pfx` models the JS field
`prefix` (a Lean keyword). -/
structure Sequence where
  id : String
  name : String
  pfx : String
  nextValue : String
  highestUsed : String
  type : SeqType
  mode : SeqMode
  locked : Bool
  createdAt : Nat
deriving DecidableEq, Repr

/-- A text node of the current page, with its three link plugin-data keys
(`""` means the key was never set or was cleared). -/
structure TextNode where
  id : String
  characters : String
  sequenceId : String
  stampedValue : String
  stampedAt : String
deriving DecidableEq, Repr

/-- A node of the current page: a text leaf or a container with children
(frame, group, component, ...). -/
inductive Node where
  | text : TextNode → Node
  | container : String → List Node → Node

/-- Whitespace as trimmed by `String.prototype.trim` / skipped by `parseInt`
(the values handled by the plugin only ever involve these). -/
def isWS (c : Char) : Bool :=
  c == ' ' || c == '\t' || c == '\n' || c == '\r'

/-- Model of `String.prototype.trim`. -/
def jsTrim (s : String) : String :=
  String.mk (((s.data.dropWhile isWS).reverse.dropWhile isWS).reverse)

/-- ASCII decimal digit test. -/
def isDigitCh (c : Char) : Bool :=
  48 ≤ c.toNat && c.toNat ≤ 57

/-- Numeric value of an ASCII digit character. -/
def digitVal (c : Char) : Nat :=
  c.toNat - 48

/-- Longest digit run at the front of the list (how `parseInt` scans). -/
def takeDigits : List Char → List Char
  | [] => []
  | c :: cs => if isDigitCh c then c :: takeDigits cs else []

/-- Decimal value of a big-endian digit-character list. -/
def decValue (l : List Char) : Nat :=
  l.foldl (fun a c => a * 10 + digitVal c) 0

/-- Turn the scanned digit run into `parseInt`'s result; an empty run is NaN
(`none`). -/
def digitsToInt (neg : Bool) (ds : List Char) : Option Int :=
  match ds with
  | [] => none
  | _ :: _ => some (if neg then -(decValue ds : Int) else (decValue ds : Int))

/-- Model of `parseInt(s, 10)`: skip leading whitespace, optional sign, then
the longest digit run; NaN (`none`) when the run is empty. -/
def parseIntJS (s : String) : Option Int :=
  match s.data.dropWhile isWS with
  | [] => none
  | c :: rest =>
    if c == '-' then digitsToInt true (takeDigits rest)
    else if c == '+' then digitsToInt false (takeDigits rest)
    else digitsToInt false (takeDigits (c :: rest))

/-- Little-endian decimal digit characters of `n`, with explicit fuel so the
recursion is structural (fuel `n` is always enough). -/
def natToDigitsAux : Nat → Nat → List Char
  | 0, _ => []
  | _ + 1, 0 => []
  | fuel + 1, n + 1 => Nat.digitChar ((n + 1) % 10) :: natToDigitsAux fuel ((n + 1) / 10)

/-- Model of `Number.prototype.toString` for a nonnegative integer. -/
def jsNatToString (n : Nat) : String :=
  if n == 0 then "0" else String.mk ((natToDigitsAux n n).reverse)

/-- Model of `Number.prototype.toString` for an integer. -/
def jsIntToString (i : Int) : String :=
  if i < 0 then "-" ++ jsNatToString i.natAbs else jsNatToString i.natAbs

/-- Model of `String.prototype.padStart(n, c)`. -/
def padStart (s : String) (n : Nat) (c : Char) : String :=
  String.mk (List.replicate (n - s.data.length) c ++ s.data)

/-- src/code.js `incrementNumber` (v2, lines 449-452):
`parseInt(value, 10) + 1`, re-rendered left-zero-padded to the input width. -/
def incrementNumber (value : String) : String :=
  match parseIntJS value with
  | some num => padStart (jsIntToString (num + 1)) value.data.length '0'
  | none => padStart "NaN" value.data.length '0'

/-- Model of `String.prototype.toUpperCase` on one character. -/
def jsToUpper (c : Char) : Char :=
  if 97 ≤ c.toNat && c.toNat ≤ 122 then Char.ofNat (c.toNat - 32) else c

/-- The carry loop of `incrementLetter`, acting on the reversed character
list (the JS loop walks from the rightmost position): a `Z` rolls to `A` and
carries; the first non-`Z` is bumped by one char code; if every position
rolled over, an `A` is appended (i.e. prepended after un-reversing). -/
def incLetterRev : List Char → List Char
  | [] => ['A']
  | c :: cs => if c == 'Z' then 'A' :: incLetterRev cs else Char.ofNat (c.toNat + 1) :: cs

/-- src/code.js `incrementLetter` (v2, lines 454-468). -/
def incrementLetter (value : String) : String :=
  String.mk ((incLetterRev ((value.data.map jsToUpper).reverse)).reverse)

/-- src/code.js `incrementValue` (v2, lines 470-475). -/
def incrementValue (s : Sequence) : String :=
  match s.type with
  | SeqType.letter => incrementLetter s.nextValue
  | SeqType.number => incrementNumber s.nextValue

/-- src/code.js `getFullValue` (v2, lines 477-479): `(prefix || '') + nextValue`. -/
def getFullValue (s : Sequence) : String :=
  s.pfx ++ s.nextValue

/-- Character-code lexicographic comparison of character lists; the sign
models the sign of `localeCompare` on the plugin's value strings. -/
def lexCmp : List Char → List Char → Int
  | [], [] => 0
  | [], _ :: _ => -1
  | _ :: _, [] => 1
  | a :: as, b :: bs =>
    if a.toNat < b.toNat then -1
    else if b.toNat < a.toNat then 1
    else lexCmp as bs

/-- Model of `a.localeCompare(b)` (sign-accurate on digit/letter strings). -/
def localeCompare (a b : String) : Int :=
  lexCmp a.data b.data

/-- src/code.js `compareValues` (v2, lines 482-487): `localeCompare` for
letters, `parseInt(a) - parseInt(b)` for numbers; `none` models a NaN
result of the subtraction. -/
def compareValues (a b : String) (t : SeqType) : Option Int :=
  match t with
  | SeqType.letter => some (localeCompare a b)
  | SeqType.number =>
    match parseIntJS a, parseIntJS b with
    | some x, some y => some (x - y)
    | _, _ => none

/-- The guard `compareValues(a, b, t) > 0` as the code uses it (a NaN
comparison is false in JS). -/
def cmpGT (a b : String) (t : SeqType) : Bool :=
  match compareValues a b t with
  | some x => decide (0 < x)
  | none => false

/-- The guard `parseInt(a) <= parseInt(b)` of the reset handler (false when
either side is NaN). -/
def jsLE (a b : Option Int) : Bool :=
  match a, b with
  | some x, some y => decide (x ≤ y)
  | _, _ => false

/-- Removal of the first occurrence of `pat` (model of
`String.prototype.replace(pat, '')` with a string pattern; an empty pattern
matches at position 0 and removes nothing). -/
def removeFirstL (pat : List Char) : List Char → List Char
  | [] => []
  | c :: cs =>
    if pat.isPrefixOf (c :: cs) then List.drop pat.length (c :: cs)
    else c :: removeFirstL pat cs

/-- `s.replace(pat, '')` for strings. -/
def jsReplaceFirst (s pat : String) : String :=
  String.mk (removeFirstL pat.data s.data)

mutual

/-- src/code.js `isStampedValueDuplicated` (v2, lines 517-536), as the count
its traversal accumulates over one node: text nodes other than
`excludeNodeId` whose `stampedValue` plugin data equals `value`. -/
def dupCountNode (value excludeId : String) : Node → Nat
  | Node.text t => if !(t.id == excludeId) && t.stampedValue == value then 1 else 0
  | Node.container _ cs => dupCountList value excludeId cs

/-- Traversal of a child list for `dupCountNode`. -/
def dupCountList (value excludeId : String) : List Node → Nat
  | [] => 0
  | n :: ns => dupCountNode value excludeId n + dupCountList value excludeId ns

end

/-- src/code.js `isStampedValueDuplicated` result: `count > 0`. -/
def isStampedValueDuplicated (value excludeId : String) (page : Node) : Bool :=
  decide (0 < dupCountNode value excludeId page)

mutual

/-- src/code.js `findNodesLinkedToSequence` (v2, lines 539-558), as the
number of collected nodes: text nodes whose `sequenceId` plugin data equals
`sequenceId` (the delete handler only uses the length of the result). -/
def countLinkedNode (sequenceId : String) : Node → Nat
  | Node.text t => if t.sequenceId == sequenceId then 1 else 0
  | Node.container _ cs => countLinkedList sequenceId cs

/-- Traversal of a child list for `countLinkedNode`. -/
def countLinkedList (sequenceId : String) : List Node → Nat
  | [] => 0
  | n :: ns => countLinkedNode sequenceId n + countLinkedList sequenceId ns

end

mutual

/-- In-place mutation of the text node with id `nid` inside the page tree
(the JS handlers mutate the selected node object, which lives in the tree). -/
def updateTextInNode (nid : String) (f : TextNode → TextNode) : Node → Node
  | Node.text t => if t.id == nid then Node.text (f t) else Node.text t
  | Node.container cid cs => Node.container cid (updateTextInList nid f cs)

/-- Mutation of a child list for `updateTextInNode`. -/
def updateTextInList (nid : String) (f : TextNode → TextNode) : List Node → List Node
  | [] => []
  | n :: ns => updateTextInNode nid f n :: updateTextInList nid f ns

end

/-- The plugin-visible state: the persisted sequence collection and selected
pointer, the current page tree, and the current selection. -/
structure PluginState where
  sequences : List Sequence
  selectedId : String
  page : Node
  selection : List Node

/-- Mutate the text node `nid` both in the page and in the selection (in JS
the selection holds references into the page tree). -/
def mutateNode (nid : String) (f : TextNode → TextNode) (st : PluginState) : PluginState :=
  { st with
    page := updateTextInNode nid f st.page
    selection := st.selection.map fun n =>
      match n with
      | Node.text t => if t.id == nid then Node.text (f t) else Node.text t
      | other => other }

/-- Replace the first element satisfying `p` by `y` (how mutating the object
returned by `Array.prototype.find` changes the persisted array). -/
def setFirst (p : α → Bool) (y : α) : List α → List α
  | [] => []
  | x :: xs => if p x then y :: xs else x :: setFirst p y xs

/-- The outbound UI messages the handlers post (the fields the claims are
about; `silent` models a handler returning without posting). -/
inductive Out where
  | silent : Out
  | error : String → Out
  | sequenceCreated : Sequence → Out
  | sequenceDeleted : Out
  | stamped : String → Sequence → Out
  | unlinked : Out
  | relinked : Out
  | resetDone : Sequence → Out
deriving DecidableEq, Repr

/-- The inbound UI messages (v2 handlers). `generateId()` and `Date.now()`
are host-provided nondeterminism, threaded as explicit parameters. -/
inductive Msg where
  | selectSequence : String → Msg
  | createSequence : (name pfx startValue : String) → SeqType → SeqMode → (newId : String) → (now : Nat) → Msg
  | deleteSequence : String → Msg
  | linkAndStamp : (sequenceId : String) → (now : Nat) → Msg
  | stamp : (now : Nat) → Msg
  | unlink : Msg
  | relink : (newSequenceId : String) → Msg
  | reset : (sequenceId value : String) → Msg
  | close : Msg
deriving DecidableEq, Repr

/-- The sequence advance shared by both stamp handlers (v2, lines 781-786 and
863-867): `nextValue = incrementValue(sequence)`, then raise `highestUsed`
to `stampValue.replace(prefix, '')` when that compares greater under
`compareValues`. -/
def stampAdvance (s : Sequence) : Sequence :=
  let stampValue := getFullValue s
  let s1 := { s with nextValue := incrementValue s }
  let unform := jsReplaceFirst stampValue s.pfx
  if cmpGT unform s.highestUsed s.type then { s1 with highestUsed := unform } else s1

/-- v2 lines 788-790: `if (sequence.mode === 'compliance') sequence.locked = true`. -/
def lockIfCompliance (s : Sequence) : Sequence :=
  if s.mode == SeqMode.compliance then { s with locked := true } else s

/-- src/code.js `select-sequence` handler (v2, lines 673-676). -/
def handleSelect (id : String) (st : PluginState) : PluginState × Out :=
  ({ st with selectedId := id }, Out.silent)

/-- src/code.js `create-sequence` handler (v2, lines 679-704). -/
def handleCreate (name pfx startValue : String) (t : SeqType) (mode : SeqMode)
    (newId : String) (now : Nat) (st : PluginState) : PluginState × Out :=
  let newSeq : Sequence :=
    { id := newId, name := jsTrim name, pfx := jsTrim pfx,
      nextValue := jsTrim startValue, highestUsed := "0",
      type := t, mode := mode, locked := false, createdAt := now }
  ({ st with sequences := st.sequences ++ [newSeq], selectedId := newId },
   Out.sequenceCreated newSeq)

/-- The tail of the delete handler once the compliance guard passed: filter
the collection and select the first remaining sequence. -/
def doDeleteSequence (mid : String) (st : PluginState) : PluginState × Out :=
  let sequences := st.sequences.filter fun s => !(s.id == mid)
  let newSelectedId := match sequences with
    | [] => ""
    | s :: _ => s.id
  ({ st with sequences := sequences, selectedId := newSelectedId }, Out.sequenceDeleted)

/-- src/code.js `delete-sequence` handler (v2, lines 707-733). -/
def handleDelete (mid : String) (st : PluginState) : PluginState × Out :=
  match st.sequences.find? (fun s => s.id == mid) with
  | none => (st, Out.silent)
  | some sequence =>
    if sequence.mode == SeqMode.compliance then
      let linkedCount := countLinkedNode mid st.page
      if 0 < linkedCount then
        (st, Out.error ("Cannot delete: " ++ toString linkedCount ++
          " document(s) are linked to this sequence"))
      else doDeleteSequence mid st
    else doDeleteSequence mid st

/-- src/code.js `link-and-stamp` handler (v2, lines 736-801). Font loading is
an external effect with no bearing on the state. -/
def handleLinkAndStamp (sequenceId : String) (now : Nat) (st : PluginState) :
    PluginState × Out :=
  match st.selection with
  | [Node.text node] =>
    match st.sequences.find? (fun s => s.id == sequenceId) with
    | none => (st, Out.error "Sequence not found")
    | some sequence =>
      let stampValue := getFullValue sequence
      let st1 := mutateNode node.id (fun t =>
        { t with
          characters := stampValue
          sequenceId := sequence.id
          stampedValue := stampValue
          stampedAt := toString now }) st
      let s' := lockIfCompliance (stampAdvance sequence)
      ({ st1 with sequences := setFirst (fun s => s.id == sequenceId) s' st1.sequences },
       Out.stamped stampValue s')
  | [_] => (st, Out.error "Select a single text layer")
  | _ => (st, Out.error "Select a single text layer")

/-- src/code.js `stamp` handler (v2, lines 804-878): re-stamp of an already
linked node, with the compliance re-stamp guard (lines 829-838); note it
advances the sequence without touching `locked`. -/
def handleStamp (now : Nat) (st : PluginState) : PluginState × Out :=
  match st.selection with
  | [Node.text node] =>
    if node.sequenceId == "" then (st, Out.error "Text is not linked")
    else
      match st.sequences.find? (fun s => s.id == node.sequenceId) with
      | none => (st, Out.error "Linked sequence not found")
      | some sequence =>
        if sequence.mode == SeqMode.compliance && !(node.stampedValue == "") &&
            !(isStampedValueDuplicated node.stampedValue node.id st.page) then
          (st, Out.error "Cannot re-stamp in compliance mode")
        else
          let stampValue := getFullValue sequence
          let st1 := mutateNode node.id (fun t =>
            { t with
              characters := stampValue
              sequenceId := sequence.id
              stampedValue := stampValue
              stampedAt := toString now }) st
          let s' := stampAdvance sequence
          ({ st1 with sequences := setFirst (fun s => s.id == node.sequenceId) s' st1.sequences },
           Out.stamped stampValue s')
  | [_] => (st, Out.error "Select a text layer")
  | _ => (st, Out.error "Select a text layer")

/-- src/code.js `unlink` handler (v2, lines 881-892). -/
def handleUnlink (st : PluginState) : PluginState × Out :=
  match st.selection with
  | [Node.text node] =>
    (mutateNode node.id (fun t =>
      { t with sequenceId := "", stampedValue := "", stampedAt := "" }) st,
     Out.unlinked)
  | [_] => (st, Out.silent)
  | _ => (st, Out.silent)

/-- src/code.js `relink` handler (v2, lines 895-908): rewrites only the
`sequenceId` plugin data, keeping `stampedValue`/`stampedAt`. -/
def handleRelink (newSequenceId : String) (st : PluginState) : PluginState × Out :=
  match st.selection with
  | [Node.text node] =>
    (mutateNode node.id (fun t => { t with sequenceId := newSequenceId }) st,
     Out.relinked)
  | [_] => (st, Out.silent)
  | _ => (st, Out.silent)

/-- src/code.js `reset` handler (v2, lines 911-940): in compliance mode deny
when `parseInt(msg.value) <= parseInt(highestUsed)`, else set
`nextValue = msg.value.trim()`. -/
def handleReset (sequenceId value : String) (st : PluginState) : PluginState × Out :=
  match st.sequences.find? (fun s => s.id == sequenceId) with
  | none => (st, Out.silent)
  | some sequence =>
    if sequence.mode == SeqMode.compliance &&
        jsLE (parseIntJS value) (parseIntJS sequence.highestUsed) then
      (st, Out.error ("Cannot set below highest used (" ++ sequence.pfx ++
        sequence.highestUsed ++ ")"))
    else
      let s' := { sequence with nextValue := jsTrim value }
      ({ st with sequences := setFirst (fun s => s.id == sequenceId) s' st.sequences },
       Out.resetDone s')

/-- One dispatch of `figma.ui.onmessage` (v2, lines 670-946). -/
def step (m : Msg) (st : PluginState) : PluginState × Out :=
  match m with
  | Msg.selectSequence id => handleSelect id st
  | Msg.createSequence n p v t md nid now => handleCreate n p v t md nid now st
  | Msg.deleteSequence id => handleDelete id st
  | Msg.linkAndStamp sid now => handleLinkAndStamp sid now st
  | Msg.stamp now => handleStamp now st
  | Msg.unlink => handleUnlink st
  | Msg.relink nid => handleRelink nid st
  | Msg.reset sid v => handleReset sid v st
  | Msg.close => (st, Out.silent)

/-- Run a list of messages from a state. -/
def run : List Msg → PluginState → PluginState
  | [], st => st
  | m :: ms, st => run ms (step m st).1

/-- The derived selection state (src/code.js `analyzeSelection`, v2, lines
563-617). -/
inductive SelState where
  | none : SelState
  | notText : SelState
  | unlinked : (nodeId currentText : String) → SelState
  | brokenLink : (nodeId stampedValue : String) → SelState
  | needsStamp : (nodeId : String) → Sequence → (isDuplicate : Bool) → SelState
  | stamped : (nodeId : String) → Sequence → (stampedValue : String) → SelState
deriving DecidableEq, Repr

/-- src/code.js `analyzeSelection` (v2, lines 563-617). -/
def analyzeSelection (st : PluginState) : SelState :=
  match st.selection with
  | [Node.text t] =>
    if t.sequenceId == "" then SelState.unlinked t.id t.characters
    else
      match st.sequences.find? (fun s => s.id == t.sequenceId) with
      | none => SelState.brokenLink t.id t.stampedValue
      | some sequence =>
        let isDup := !(t.stampedValue == "") &&
          isStampedValueDuplicated t.stampedValue t.id st.page
        if isDup || t.stampedValue == "" then SelState.needsStamp t.id sequence isDup
        else SelState.stamped t.id sequence t.stampedValue
  | [_] => SelState.notText
  | _ => SelState.none

/-- The unformatted values issued for sequence `sid` by one step: on a
successful stamp the posted `stampedValue` with the sequence's prefix
removed, exactly as the watermark update computes it. -/
def issuedOf (m : Msg) (st : PluginState) (sid : String) : List String :=
  match (step m st).2 with
  | Out.stamped v s => if s.id == sid then [jsReplaceFirst v s.pfx] else []
  | _ => []

/-- All unformatted values issued for `sid` along a run. -/
def issuedRun (sid : String) : List Msg → PluginState → List String
  | [], _ => []
  | m :: ms, st => issuedOf m st sid ++ issuedRun sid ms (step m st).1

/-- Uppercase ASCII letter test. -/
def isUpperCh (c : Char) : Bool :=
  65 ≤ c.toNat && c.toNat ≤ 90

/-- Syntactic validity of an unformatted value for a sequence type: nonempty
decimal digits for `number`, nonempty uppercase `A`-`Z` for `letter`. -/
def validValue (t : SeqType) (v : String) : Prop :=
  match t with
  | SeqType.number => v.data ≠ [] ∧ ∀ c ∈ v.data, isDigitCh c = true
  | SeqType.letter => v.data ≠ [] ∧ ∀ c ∈ v.data, isUpperCh c = true

/-- Bijective base-26 value of a little-endian (reversed) letter list:
`A` = 1, ..., `Z` = 26, with weight 26 per further position. -/
def bijVal : List Char → Nat
  | [] => 0
  | c :: cs => (c.toNat - 64) + 26 * bijVal cs

/-- Bijective base-26 value of a letter string. -/
def letterVal (v : String) : Nat :=
  bijVal v.data.reverse

/- ### Character and digit lemmas -/

theorem stringExt {s t : String} (h : s.data = t.data) : s = t := by
  cases s
  cases t
  simp_all

theorem charToNat_inj {c d : Char} (h : c.toNat = d.toNat) : c = d := by
  have hc := Char.ofNat_toNat c
  have hd := Char.ofNat_toNat d
  rw [← hc, ← hd, h]

theorem toNat_ofNat_valid (n : Nat) (h : n < 55296) : (Char.ofNat n).toNat = n := by
  rw [Char.ofNat, dif_pos (Or.inl h : n.isValidChar)]
  rfl

theorem char_beq_false {c d : Char} (h : c.toNat ≠ d.toNat) : (c == d) = false := by
  rcases hbe : c == d with _ | _
  · rfl
  · exact absurd (congrArg Char.toNat (eq_of_beq hbe)) h

theorem isWS_false_of_digit {c : Char} (h : isDigitCh c = true) : isWS c = false := by
  simp only [isDigitCh, Bool.and_eq_true, decide_eq_true_eq] at h
  simp only [isWS, Bool.or_eq_false_iff]
  refine ⟨⟨⟨char_beq_false ?_, char_beq_false ?_⟩, char_beq_false ?_⟩, char_beq_false ?_⟩ <;>
    simp only [show (' ').toNat = 32 from rfl, show ('\t').toNat = 9 from rfl,
      show ('\n').toNat = 10 from rfl, show ('\r').toNat = 13 from rfl] <;> omega

theorem dropWhile_eq_self_of_none {p : Char → Bool} {l : List Char}
    (h : ∀ c ∈ l, p c = false) : l.dropWhile p = l := by
  cases l with
  | nil => rfl
  | cons c cs =>
    rw [List.dropWhile_cons, h c (List.mem_cons_self c cs)]
    simp

theorem jsTrim_eq_self {s : String} (h : ∀ c ∈ s.data, isWS c = false) : jsTrim s = s := by
  unfold jsTrim
  have h1 : s.data.dropWhile isWS = s.data := dropWhile_eq_self_of_none h
  have h2 : s.data.reverse.dropWhile isWS = s.data.reverse :=
    dropWhile_eq_self_of_none fun c hc => h c (List.mem_reverse.mp hc)
  rw [h1, h2, List.reverse_reverse]

theorem takeDigits_eq_self {l : List Char} (h : ∀ c ∈ l, isDigitCh c = true) :
    takeDigits l = l := by
  induction l with
  | nil => rfl
  | cons c cs ih =>
    unfold takeDigits
    rw [h c (List.mem_cons_self c cs), if_pos rfl]
    rw [ih fun x hx => h x (List.mem_cons_of_mem c hx)]

theorem decValue_append_singleton (xs : List Char) (c : Char) :
    decValue (xs ++ [c]) = decValue xs * 10 + digitVal c := by
  unfold decValue
  rw [List.foldl_append]
  rfl

theorem decValue_replicate_zero (k : Nat) (l : List Char) :
    decValue (List.replicate k '0' ++ l) = decValue l := by
  unfold decValue
  rw [List.foldl_append]
  congr 1
  induction k with
  | zero => rfl
  | succ k ih =>
    rw [List.replicate_succ, List.foldl_cons]
    exact ih

theorem digitChar_isDigit : ∀ d, d < 10 → isDigitCh (Nat.digitChar d) = true := by decide

theorem digitVal_digitChar : ∀ d, d < 10 → digitVal (Nat.digitChar d) = d := by decide

/-- `parseIntJS` on a nonempty all-digit string is its decimal value. -/
theorem parseIntJS_digits {s : String} (h1 : s.data ≠ [])
    (h2 : ∀ c ∈ s.data, isDigitCh c = true) :
    parseIntJS s = some ((decValue s.data : Int)) := by
  have hl : s.data.dropWhile isWS = s.data :=
    dropWhile_eq_self_of_none fun c hc => isWS_false_of_digit (h2 c hc)
  obtain ⟨c, rest, hd⟩ := List.exists_cons_of_ne_nil h1
  have hc : isDigitCh c = true := h2 c (by rw [hd]; exact List.mem_cons_self c rest)
  have hminus : (c == '-') = false := by
    refine char_beq_false ?_
    simp only [isDigitCh, Bool.and_eq_true, decide_eq_true_eq] at hc
    simp only [show ('-').toNat = 45 from rfl]
    omega
  have hplus : (c == '+') = false := by
    refine char_beq_false ?_
    simp only [isDigitCh, Bool.and_eq_true, decide_eq_true_eq] at hc
    simp only [show ('+').toNat = 43 from rfl]
    omega
  have htake : takeDigits (c :: rest) = c :: rest :=
    takeDigits_eq_self (by rw [← hd]; exact h2)
  unfold parseIntJS
  rw [hl, hd]
  simp only [hminus, hplus, Bool.false_eq_true, if_false, htake, digitsToInt]

/- ### Decimal printing lemmas -/

theorem natToDigitsAux_eq : ∀ fuel n, n ≤ fuel →
    natToDigitsAux fuel n = (Nat.digits 10 n).map Nat.digitChar := by
  intro fuel
  induction fuel with
  | zero =>
    intro n hn
    interval_cases n
    simp [natToDigitsAux]
  | succ fuel ih =>
    intro n hn
    cases n with
    | zero => simp [natToDigitsAux]
    | succ m =>
      rw [natToDigitsAux, Nat.digits_def' (by norm_num : (1:Nat) < 10) (Nat.succ_pos m)]
      rw [List.map_cons]
      congr 1
      exact ih _ (by
        have := Nat.div_lt_self (Nat.succ_pos m) (by norm_num : (1:Nat) < 10)
        omega)

theorem decValue_rev_map_digitChar {L : List Nat} (h : ∀ d ∈ L, d < 10) :
    decValue ((L.map Nat.digitChar).reverse) = Nat.ofDigits 10 L := by
  induction L with
  | nil => rfl
  | cons d T ih =>
    rw [List.map_cons, List.reverse_cons, decValue_append_singleton]
    rw [ih fun x hx => h x (List.mem_cons_of_mem d hx)]
    rw [digitVal_digitChar d (h d (List.mem_cons_self d T))]
    rw [Nat.ofDigits_cons]
    omega

/-- The characters of `jsNatToString n`. -/
theorem jsNatToString_data (n : Nat) (hn : n ≠ 0) :
    (jsNatToString n).data = ((Nat.digits 10 n).map Nat.digitChar).reverse := by
  unfold jsNatToString
  rw [if_neg (by simpa using hn)]
  rw [natToDigitsAux_eq n n (le_refl n)]

theorem jsNatToString_all_digits (n : Nat) :
    ∀ c ∈ (jsNatToString n).data, isDigitCh c = true := by
  rcases eq_or_ne n 0 with rfl | hn
  · intro c hc
    have hz : (jsNatToString 0).data = ['0'] := rfl
    rw [hz, List.mem_singleton] at hc
    subst hc
    rfl
  · rw [jsNatToString_data n hn]
    intro c hc
    rw [List.mem_reverse, List.mem_map] at hc
    obtain ⟨d, hd, rfl⟩ := hc
    exact digitChar_isDigit d (Nat.digits_lt_base (by norm_num) hd)

theorem jsNatToString_ne_nil (n : Nat) : (jsNatToString n).data ≠ [] := by
  rcases eq_or_ne n 0 with rfl | hn
  · simp [jsNatToString]
  · rw [jsNatToString_data n hn]
    simp only [ne_eq, List.reverse_eq_nil_iff, List.map_eq_nil_iff]
    exact Nat.digits_ne_nil_iff_ne_zero.mpr hn

theorem decValue_jsNatToString (n : Nat) : decValue (jsNatToString n).data = n := by
  rcases eq_or_ne n 0 with rfl | hn
  · rfl
  · rw [jsNatToString_data n hn]
    rw [decValue_rev_map_digitChar fun d hd => Nat.digits_lt_base (by norm_num) hd]
    exact Nat.ofDigits_digits 10 n

theorem jsNatToString_length (n : Nat) (hn : n ≠ 0) :
    (jsNatToString n).data.length = Nat.log 10 n + 1 := by
  rw [jsNatToString_data n hn, List.length_reverse, List.length_map]
  exact Nat.digits_len 10 n (by norm_num) hn

theorem padStart_data (s : String) (n : Nat) (c : Char) :
    (padStart s n c).data = List.replicate (n - s.data.length) c ++ s.data := rfl

theorem jsIntToString_nonneg (n : Nat) : jsIntToString ((n : Int)) = jsNatToString n := by
  unfold jsIntToString
  rw [if_neg (by omega)]
  rw [Int.natAbs_ofNat]

/-- `incrementNumber` on a nonempty all-digit string: the result is again a
nonempty all-digit string, its value is the input value plus one, and its
width is the input width padded up against the minimal width of the
successor. -/
theorem incrementNumber_digits {v : String} (h1 : v.data ≠ [])
    (h2 : ∀ c ∈ v.data, isDigitCh c = true) :
    ((incrementNumber v).data ≠ [] ∧ ∀ c ∈ (incrementNumber v).data, isDigitCh c = true) ∧
    decValue (incrementNumber v).data = decValue v.data + 1 ∧
    (incrementNumber v).data.length =
      max v.data.length (Nat.log 10 (decValue v.data + 1) + 1) := by
  have hpos : ((decValue v.data : Int)) + 1 = (((decValue v.data + 1 : Nat) : Int)) := by
    push_cast
    omega
  have hstr : incrementNumber v = padStart (jsNatToString (decValue v.data + 1)) v.data.length '0' := by
    unfold incrementNumber
    rw [parseIntJS_digits h1 h2]
    show padStart (jsIntToString ((decValue v.data : Int) + 1)) v.data.length '0' = _
    rw [hpos, jsIntToString_nonneg]
  have hm : decValue v.data + 1 ≠ 0 := by omega
  rw [hstr, padStart_data]
  refine ⟨⟨?_, ?_⟩, ?_, ?_⟩
  · intro hnil
    exact jsNatToString_ne_nil _ (List.append_eq_nil.mp hnil).2
  · intro c hc
    rcases List.mem_append.mp hc with h | h
    · rw [List.eq_of_mem_replicate h]
      rfl
    · exact jsNatToString_all_digits _ c h
  · rw [decValue_replicate_zero, decValue_jsNatToString]
  · rw [List.length_append, List.length_replicate, jsNatToString_length _ hm]
    omega

/-- Claim C7: for every valid decimal string `v` (nonempty, digits only),
`incrementNumber v` parses to `parseInt(v) + 1`, and its printed width is
the maximum of `v`'s width and the minimal width needed to print the
successor (`Nat.log 10 (n+1) + 1` digits). -/
theorem C7_incrementNumber_correct (v : String) (h1 : v.data ≠ [])
    (h2 : ∀ c ∈ v.data, isDigitCh c = true) :
    parseIntJS v = some ((decValue v.data : Int)) ∧
    parseIntJS (incrementNumber v) = some (((decValue v.data + 1 : Nat) : Int)) ∧
    (incrementNumber v).length = max v.length (Nat.log 10 (decValue v.data + 1) + 1) := by
  obtain ⟨⟨hnil, hdig⟩, hval, hlen⟩ := incrementNumber_digits h1 h2
  refine ⟨parseIntJS_digits h1 h2, ?_, hlen⟩
  rw [parseIntJS_digits hnil hdig, hval]

/-- Witness for C7 at `v = "0099"`: the value advances from 99 to 100 and
the printed width stays 4 (`"0100"`). -/
theorem C7_incrementNumber_correct_witness :
    parseIntJS (incrementNumber "0099") = some 100 ∧ incrementNumber "0099" = "0100" := by
  have h := C7_incrementNumber_correct "0099" (by decide) (by decide)
  exact ⟨h.2.1, rfl⟩

/- ### Letter increment lemmas -/

theorem jsToUpper_eq_self {c : Char} (h : isUpperCh c = true) : jsToUpper c = c := by
  simp only [isUpperCh, Bool.and_eq_true, decide_eq_true_eq] at h
  unfold jsToUpper
  rw [if_neg]
  simp only [Bool.and_eq_true, decide_eq_true_eq, not_and]
  omega

theorem map_jsToUpper_eq_self {l : List Char} (h : ∀ c ∈ l, isUpperCh c = true) :
    l.map jsToUpper = l := by
  rw [List.map_congr_left fun c hc => jsToUpper_eq_self (h c hc)]
  exact List.map_id l

theorem toNat_lt_90_of_not_Z {c : Char} (h : isUpperCh c = true)
    (hz : (c == 'Z') = false) : c.toNat < 90 := by
  simp only [isUpperCh, Bool.and_eq_true, decide_eq_true_eq] at h
  rcases Nat.lt_or_ge c.toNat 90 with hlt | hge
  · exact hlt
  · exfalso
    have h90 : c.toNat = 90 := by omega
    have : c = 'Z' := charToNat_inj (by rw [h90]; rfl)
    rw [this] at hz
    simp at hz

theorem incLetterRev_ne_nil : ∀ l : List Char, incLetterRev l ≠ [] := by
  intro l
  cases l with
  | nil => simp [incLetterRev]
  | cons c cs =>
    unfold incLetterRev
    split <;> simp

/-- The carry loop computes the bijective base-26 successor and keeps every
character in `A`-`Z`. -/
theorem incLetterRev_correct : ∀ l : List Char, (∀ c ∈ l, isUpperCh c = true) →
    bijVal (incLetterRev l) = bijVal l + 1 ∧
    (∀ c ∈ incLetterRev l, isUpperCh c = true) := by
  intro l
  induction l with
  | nil =>
    intro _
    refine ⟨rfl, ?_⟩
    intro c hc
    unfold incLetterRev at hc
    rw [List.mem_singleton] at hc
    subst hc
    rfl
  | cons c cs ih =>
    intro h
    have hc : isUpperCh c = true := h c (List.mem_cons_self c cs)
    have hcs : ∀ x ∈ cs, isUpperCh x = true := fun x hx => h x (List.mem_cons_of_mem c hx)
    obtain ⟨ihv, ihm⟩ := ih hcs
    unfold incLetterRev
    rcases hz : c == 'Z' with _ | _
    · simp only [Bool.false_eq_true, if_false]
      have hlt : c.toNat < 90 := toNat_lt_90_of_not_Z hc hz
      have hub : isUpperCh c = true := hc
      simp only [isUpperCh, Bool.and_eq_true, decide_eq_true_eq] at hub
      have hsucc : (Char.ofNat (c.toNat + 1)).toNat = c.toNat + 1 :=
        toNat_ofNat_valid _ (by omega)
      constructor
      · simp only [bijVal, hsucc]
        omega
      · intro x hx
        rcases List.mem_cons.mp hx with rfl | hx
        · simp only [isUpperCh, hsucc, Bool.and_eq_true, decide_eq_true_eq]
          omega
        · exact hcs x hx
    · have hcz : c = 'Z' := eq_of_beq hz
      subst hcz
      simp only [if_pos]
      constructor
      · simp only [bijVal, ihv, show ('A').toNat = 65 from rfl, show ('Z').toNat = 90 from rfl]
        omega
      · intro x hx
        rcases List.mem_cons.mp hx with rfl | hx
        · rfl
        · exact ihm x hx

/-- `bijVal` is injective on uppercase letter lists. -/
theorem bijVal_inj : ∀ l1 l2 : List Char, (∀ c ∈ l1, isUpperCh c = true) →
    (∀ c ∈ l2, isUpperCh c = true) → bijVal l1 = bijVal l2 → l1 = l2 := by
  intro l1
  induction l1 with
  | nil =>
    intro l2 _ h2 hv
    cases l2 with
    | nil => rfl
    | cons d ds =>
      exfalso
      have hd : isUpperCh d = true := h2 d (List.mem_cons_self d ds)
      simp only [isUpperCh, Bool.and_eq_true, decide_eq_true_eq] at hd
      simp only [bijVal] at hv
      omega
  | cons c cs ih =>
    intro l2 h1 h2 hv
    cases l2 with
    | nil =>
      exfalso
      have hc : isUpperCh c = true := h1 c (List.mem_cons_self c cs)
      simp only [isUpperCh, Bool.and_eq_true, decide_eq_true_eq] at hc
      simp only [bijVal] at hv
      omega
    | cons d ds =>
      have hc : isUpperCh c = true := h1 c (List.mem_cons_self c cs)
      have hd : isUpperCh d = true := h2 d (List.mem_cons_self d ds)
      simp only [isUpperCh, Bool.and_eq_true, decide_eq_true_eq] at hc hd
      simp only [bijVal] at hv
      have heads : c.toNat = d.toNat ∧ bijVal cs = bijVal ds := by
        constructor <;> omega
      have hcd : c = d := charToNat_inj heads.1
      subst hcd
      rw [ih ds (fun x hx => h1 x (List.mem_cons_of_mem c hx))
        (fun x hx => h2 x (List.mem_cons_of_mem c hx)) heads.2]

/-- Claim C8: for every nonempty uppercase string `v`, `incrementLetter v`
is the unique successor of `v` in bijective base-26 order (its value is
`letterVal v + 1`, it is again a nonempty uppercase string, and any
uppercase string with that value equals it), and the rollover examples
`Z -> AA`, `AZ -> BA`, `ZZ -> AAA` hold. -/
theorem C8_incrementLetter_correct (v : String) (_h1 : v.data ≠ [])
    (h2 : ∀ c ∈ v.data, isUpperCh c = true) :
    letterVal (incrementLetter v) = letterVal v + 1 ∧
    ((incrementLetter v).data ≠ [] ∧ ∀ c ∈ (incrementLetter v).data, isUpperCh c = true) ∧
    (∀ w : String, (∀ c ∈ w.data, isUpperCh c = true) →
      letterVal w = letterVal v + 1 → w = incrementLetter v) ∧
    incrementLetter "Z" = "AA" ∧ incrementLetter "AZ" = "BA" ∧
    incrementLetter "ZZ" = "AAA" := by
  have hrev : ∀ c ∈ v.data.reverse, isUpperCh c = true :=
    fun c hc => h2 c (List.mem_reverse.mp hc)
  obtain ⟨hval, hmem⟩ := incLetterRev_correct v.data.reverse hrev
  have hdata : (incrementLetter v).data = (incLetterRev v.data.reverse).reverse := by
    unfold incrementLetter
    rw [map_jsToUpper_eq_self h2]
  have hlv : letterVal (incrementLetter v) = bijVal (incLetterRev v.data.reverse) := by
    unfold letterVal
    rw [hdata, List.reverse_reverse]
  refine ⟨?_, ⟨?_, ?_⟩, ?_, rfl, rfl, rfl⟩
  · rw [hlv]
    exact hval
  · rw [hdata]
    simp only [ne_eq, List.reverse_eq_nil_iff]
    exact incLetterRev_ne_nil _
  · intro c hc
    rw [hdata, List.mem_reverse] at hc
    exact hmem c hc
  · intro w hw hwv
    have hweq : w.data.reverse = incLetterRev v.data.reverse := by
      refine bijVal_inj _ _ (fun c hc => hw c (List.mem_reverse.mp hc)) hmem ?_
      unfold letterVal at hwv
      rw [hwv, ← hval]
    refine stringExt ?_
    rw [hdata, ← hweq, List.reverse_reverse]

/-- Witness for C8 at `v = "AZ"`: the successor is `"BA"` and the bijective
base-26 value advances by one. -/
theorem C8_incrementLetter_correct_witness :
    incrementLetter "AZ" = "BA" ∧ letterVal (incrementLetter "AZ") = letterVal "AZ" + 1 := by
  have h := C8_incrementLetter_correct "AZ" (by decide) (by decide)
  exact ⟨h.2.2.2.2.1, h.1⟩

/- ### Lexicographic comparison lemmas -/

theorem lexCmp_append_left : ∀ (p a b : List Char), lexCmp (p ++ a) (p ++ b) = lexCmp a b := by
  intro p
  induction p with
  | nil => intro a b; rfl
  | cons x xs ih =>
    intro a b
    simp only [List.cons_append, lexCmp, Nat.lt_irrefl, if_false]
    exact ih a b

theorem lexCmp_cons_of_lt {a b : Char} (as bs : List Char) (h : a.toNat < b.toNat) :
    lexCmp (a :: as) (b :: bs) = -1 := by
  simp only [lexCmp, h, if_pos]

theorem lexCmp_cons_of_gt {a b : Char} (as bs : List Char) (h : b.toNat < a.toNat) :
    lexCmp (a :: as) (b :: bs) = 1 := by
  simp only [lexCmp, h, if_pos, if_neg (Nat.lt_asymm h)]

/-- An all-`Z` (reversed) input makes the carry loop roll every position
over and produce one more `A`. -/
theorem incLetterRev_allZ : ∀ l : List Char, (∀ z ∈ l, z = 'Z') →
    incLetterRev l = List.replicate (l.length + 1) 'A' := by
  intro l
  induction l with
  | nil => intro _; rfl
  | cons c cs ih =>
    intro h
    have hc : c = 'Z' := h c (List.mem_cons_self c cs)
    subst hc
    show 'A' :: incLetterRev cs = List.replicate (('Z' :: cs).length + 1) 'A'
    rw [ih fun z hz => h z (List.mem_cons_of_mem _ hz)]
    rfl

/-- A (reversed) input with a `Z` block before the first non-`Z`: the block
rolls to `A`s, the non-`Z` is bumped, the remainder is untouched. -/
theorem incLetterRev_zblock : ∀ (zs : List Char) (c : Char) (t : List Char),
    (∀ z ∈ zs, z = 'Z') → (c == 'Z') = false →
    incLetterRev (zs ++ c :: t) =
      List.replicate zs.length 'A' ++ Char.ofNat (c.toNat + 1) :: t := by
  intro zs
  induction zs with
  | nil =>
    intro c t _ hc
    unfold incLetterRev
    simp only [List.nil_append, List.replicate_zero, hc, Bool.false_eq_true, if_false]
    rfl
  | cons z zt ih =>
    intro c t h hc
    have hz : z = 'Z' := h z (List.mem_cons_self z zt)
    subst hz
    show 'A' :: incLetterRev (zt ++ c :: t) = _
    rw [ih c t (fun x hx => h x (List.mem_cons_of_mem _ hx)) hc]
    rfl

/-- Every character list is all-`Z` or has a `Z` block followed by a first
non-`Z`. -/
theorem splitZ : ∀ l : List Char, (∀ z ∈ l, z = 'Z') ∨
    ∃ zs c t, l = zs ++ c :: t ∧ (∀ z ∈ zs, z = 'Z') ∧ (c == 'Z') = false := by
  intro l
  induction l with
  | nil => left; intro z hz; cases hz
  | cons x xs ih =>
    rcases hx : x == 'Z' with _ | _
    · right
      exact ⟨[], x, xs, rfl, fun z hz => absurd hz (List.not_mem_nil z), hx⟩
    · have hxz : x = 'Z' := eq_of_beq hx
      subst hxz
      rcases ih with hall | ⟨zs, c, t, heq, hzs, hc⟩
      · left
        intro z hz
        rcases List.mem_cons.mp hz with rfl | hz
        · rfl
        · exact hall z hz
      · right
        refine ⟨'Z' :: zs, c, t, by rw [heq]; rfl, ?_, hc⟩
        intro z hz
        rcases List.mem_cons.mp hz with rfl | hz
        · rfl
        · exact hzs z hz

/-- Claim C6 counterexample: at the letter value `v = "Z"` the claim fails:
`incrementLetter "Z" = "AA"`, but `compareValues "Z" "AA" letter` is `+1`
(lexicographically `"AA" < "Z"`), not strictly negative. -/
theorem C6_compareValues_cex :
    incrementLetter "Z" = "AA" ∧
    compareValues "Z" (incrementLetter "Z") SeqType.letter = some 1 ∧
    (∀ x : Int, compareValues "Z" (incrementLetter "Z") SeqType.letter = some x → 0 < x) := by
  refine ⟨rfl, rfl, ?_⟩
  intro x hx
  have h1 : compareValues "Z" (incrementLetter "Z") SeqType.letter = some 1 := rfl
  rw [h1] at hx
  injection hx with h
  omega

/-- Claim C6 (amended): `compareValues(v, increment(v), type)` is strictly
negative for every valid `number` value, and for every valid `letter` value
containing at least one non-`Z` character; but for an all-`Z` letter value
(the length-growing rollover) it is strictly positive. -/
theorem C6_compareValues_amended :
    (∀ v : String, v.data ≠ [] → (∀ c ∈ v.data, isDigitCh c = true) →
      compareValues v (incrementNumber v) SeqType.number = some (-1)) ∧
    (∀ v : String, (∀ c ∈ v.data, isUpperCh c = true) →
      (∃ c ∈ v.data, (c == 'Z') = false) →
      compareValues v (incrementLetter v) SeqType.letter = some (-1)) ∧
    (∀ v : String, v.data ≠ [] → (∀ c ∈ v.data, c = 'Z') →
      compareValues v (incrementLetter v) SeqType.letter = some 1) := by
  refine ⟨?_, ?_, ?_⟩
  · intro v h1 h2
    obtain ⟨⟨hnil, hdig⟩, hval, -⟩ := incrementNumber_digits h1 h2
    unfold compareValues
    rw [parseIntJS_digits h1 h2, parseIntJS_digits hnil hdig, hval]
    push_cast
    ring_nf
  · intro v hup hex
    have hdata : (incrementLetter v).data = (incLetterRev v.data.reverse).reverse := by
      unfold incrementLetter
      rw [map_jsToUpper_eq_self hup]
    rcases splitZ v.data.reverse with hall | ⟨zs, c, t, heq, hzs, hc⟩
    · exfalso
      obtain ⟨c, hcm, hcz⟩ := hex
      have : c = 'Z' := hall c (List.mem_reverse.mpr hcm)
      subst this
      simp at hcz
    · have hvdata : v.data = t.reverse ++ c :: zs.reverse := by
        have := congrArg List.reverse heq
        rw [List.reverse_reverse] at this
        rw [this, List.reverse_append, List.reverse_cons, List.append_assoc]
        rfl
      have hidata : (incrementLetter v).data =
          t.reverse ++ Char.ofNat (c.toNat + 1) :: (List.replicate zs.length 'A').reverse := by
        rw [hdata, heq, incLetterRev_zblock zs c t hzs hc]
        rw [List.reverse_append, List.reverse_cons, List.append_assoc]
        rfl
      have hcup : isUpperCh c = true := by
        refine hup c ?_
        rw [hvdata]
        exact List.mem_append.mpr (Or.inr (List.mem_cons_self _ _))
      have hlt : c.toNat < (Char.ofNat (c.toNat + 1)).toNat := by
        have hub : isUpperCh c = true := hcup
        simp only [isUpperCh, Bool.and_eq_true, decide_eq_true_eq] at hub
        rw [toNat_ofNat_valid _ (by omega)]
        omega
      unfold compareValues localeCompare
      rw [hvdata, hidata, lexCmp_append_left, lexCmp_cons_of_lt _ _ hlt]
  · intro v h1 hall
    have hup : ∀ c ∈ v.data, isUpperCh c = true := by
      intro c hc
      rw [hall c hc]
      rfl
    have hdata : (incrementLetter v).data = (incLetterRev v.data.reverse).reverse := by
      unfold incrementLetter
      rw [map_jsToUpper_eq_self hup]
    have hrall : ∀ z ∈ v.data.reverse, z = 'Z' := fun z hz => hall z (List.mem_reverse.mp hz)
    have hidata : (incrementLetter v).data =
        List.replicate (v.data.length + 1) 'A' := by
      rw [hdata, incLetterRev_allZ _ hrall, List.reverse_replicate, List.length_reverse]
    obtain ⟨c, rest, hcr⟩ := List.exists_cons_of_ne_nil h1
    have hvz : v.data = 'Z' :: rest := by
      rw [hcr] at hall ⊢
      rw [hall c (List.mem_cons_self c rest)]
    show some (lexCmp v.data (incrementLetter v).data) = some 1
    rw [hidata, hvz]
    rw [show List.replicate (('Z' :: rest).length + 1) 'A' =
      'A' :: List.replicate ('Z' :: rest).length 'A' from rfl]
    rw [lexCmp_cons_of_gt _ _ (by decide)]

/-- Witness for the amended C6: the negative comparisons at `"AZ"` (letter)
and `"0099"` (number). -/
theorem C6_compareValues_amended_witness :
    compareValues "AZ" (incrementLetter "AZ") SeqType.letter = some (-1) ∧
    compareValues "0099" (incrementNumber "0099") SeqType.number = some (-1) := by
  have h := C6_compareValues_amended
  exact ⟨h.2.1 "AZ" (by decide) ⟨'A', by decide, by decide⟩, h.1 "0099" (by decide) (by decide)⟩

/- ### Comparison order lemmas -/

theorem lexCmp_self : ∀ l : List Char, lexCmp l l = 0 := by
  intro l
  induction l with
  | nil => rfl
  | cons c cs ih => simp only [lexCmp, Nat.lt_irrefl, if_false, ih]

theorem lexCmp_pos_trans : ∀ a b c : List Char,
    0 < lexCmp a b → 0 < lexCmp b c → 0 < lexCmp a c := by
  intro a
  induction a with
  | nil =>
    intro b c hab _
    exfalso
    cases b with
    | nil => simp [lexCmp] at hab
    | cons y ys => simp [lexCmp] at hab
  | cons x xs ih =>
    intro b c hab hbc
    cases b with
    | nil =>
      exfalso
      cases c with
      | nil => simp [lexCmp] at hbc
      | cons z zs => simp [lexCmp] at hbc
    | cons y ys =>
      cases c with
      | nil => simp [lexCmp]
      | cons z zs =>
        simp only [lexCmp] at hab hbc ⊢
        by_cases h1 : x.toNat < y.toNat
        · simp [h1] at hab
        · by_cases h2 : y.toNat < x.toNat
          · by_cases h3 : y.toNat < z.toNat
            · simp [h3] at hbc
            · rw [if_neg (by omega : ¬ x.toNat < z.toNat), if_pos (by omega : z.toNat < x.toNat)]
              norm_num
          · by_cases h3 : y.toNat < z.toNat
            · simp [h3] at hbc
            · by_cases h4 : z.toNat < y.toNat
              · rw [if_neg (by omega : ¬ x.toNat < z.toNat), if_pos (by omega : z.toNat < x.toNat)]
                norm_num
              · rw [if_neg (by omega : ¬ x.toNat < z.toNat), if_neg (by omega : ¬ z.toNat < x.toNat)]
                rw [if_neg h1, if_neg h2] at hab
                rw [if_neg h3, if_neg h4] at hbc
                exact ih ys zs hab hbc

theorem cmpGT_letter_iff {a b : String} :
    cmpGT a b SeqType.letter = true ↔ 0 < lexCmp a.data b.data := by
  unfold cmpGT compareValues localeCompare
  simp

theorem cmpGT_number_iff {a b : String} :
    cmpGT a b SeqType.number = true ↔
      ∃ x y, parseIntJS a = some x ∧ parseIntJS b = some y ∧ y < x := by
  unfold cmpGT compareValues
  cases ha : parseIntJS a with
  | none => simp
  | some x =>
    cases hb : parseIntJS b with
    | none => simp
    | some y =>
      simp only [decide_eq_true_eq]
      constructor
      · intro h
        exact ⟨x, y, rfl, rfl, by omega⟩
      · rintro ⟨x', y', hx', hy', hlt⟩
        injection hx' with hx'
        injection hy' with hy'
        subst hx'
        subst hy'
        omega

theorem cmpGT_self_false (v : String) (t : SeqType) : cmpGT v v t = false := by
  cases t with
  | letter =>
    unfold cmpGT compareValues localeCompare
    rw [lexCmp_self]
    rfl
  | number =>
    unfold cmpGT compareValues
    cases h : parseIntJS v with
    | none => rfl
    | some x => simp

theorem cmpGT_trans {a b c : String} {t : SeqType} (h1 : cmpGT a b t = true)
    (h2 : cmpGT b c t = true) : cmpGT a c t = true := by
  cases t with
  | letter =>
    rw [cmpGT_letter_iff] at h1 h2 ⊢
    exact lexCmp_pos_trans _ _ _ h1 h2
  | number =>
    rw [cmpGT_number_iff] at h1 h2 ⊢
    obtain ⟨x, y, hx, hy, hxy⟩ := h1
    obtain ⟨y', z, hy', hz, hyz⟩ := h2
    rw [hy] at hy'
    injection hy' with hy'
    subst hy'
    exact ⟨x, z, hx, hz, by omega⟩

/- ### List search lemmas -/

theorem find?_append_some {α : Type} {p : α → Bool} {l : List α} {y s : α}
    (h : l.find? p = some s) : (l ++ [y]).find? p = some s := by
  induction l with
  | nil => simp [List.find?] at h
  | cons x xs ih =>
    rcases hx : p x with _ | _
    · rw [List.find?_cons_of_neg _ (by simp [hx])] at h
      rw [List.cons_append, List.find?_cons_of_neg _ (by simp [hx])]
      exact ih h
    · rw [List.find?_cons_of_pos _ hx] at h
      rw [List.cons_append, List.find?_cons_of_pos _ hx]
      exact h

theorem find?_append_none {α : Type} {p : α → Bool} {l : List α} {y : α}
    (h : l.find? p = none) :
    (l ++ [y]).find? p = if p y then some y else none := by
  induction l with
  | nil =>
    simp only [List.nil_append]
    rcases hy : p y with _ | _
    · rw [List.find?_cons_of_neg _ (by simp [hy]), if_neg (by simp [hy])]
      rfl
    · rw [List.find?_cons_of_pos _ hy]
      simp
  | cons x xs ih =>
    rcases hx : p x with _ | _
    · rw [List.find?_cons_of_neg _ (by simp [hx])] at h
      rw [List.cons_append, List.find?_cons_of_neg _ (by simp [hx])]
      exact ih h
    · rw [List.find?_cons_of_pos _ hx] at h
      cases h

theorem find?_setFirst_self {α : Type} {p : α → Bool} {l : List α} {s y : α}
    (hf : l.find? p = some s) (hy : p y = true) :
    (setFirst p y l).find? p = some y := by
  induction l with
  | nil => simp [List.find?] at hf
  | cons x xs ih =>
    rcases hx : p x with _ | _
    · rw [List.find?_cons_of_neg _ (by simp [hx])] at hf
      unfold setFirst
      rw [hx]
      simp only [Bool.false_eq_true, if_false]
      rw [List.find?_cons_of_neg _ (by simp [hx])]
      exact ih hf
    · unfold setFirst
      rw [hx]
      simp only [if_true]
      rw [List.find?_cons_of_pos _ hy]

theorem find?_setFirst_other {α : Type} {p q : α → Bool} {l : List α} {y : α}
    (hdisj : ∀ x, q x = true → p x = false) (hy : p y = false) :
    (setFirst q y l).find? p = l.find? p := by
  induction l with
  | nil => rfl
  | cons x xs ih =>
    rcases hx : q x with _ | _
    · unfold setFirst
      rw [hx]
      simp only [Bool.false_eq_true, if_false]
      rcases hpx : p x with _ | _
      · rw [List.find?_cons_of_neg _ (by simp [hpx]), List.find?_cons_of_neg _ (by simp [hpx])]
        exact ih
      · rw [List.find?_cons_of_pos _ hpx, List.find?_cons_of_pos _ hpx]
    · unfold setFirst
      rw [hx]
      simp only [if_true]
      have hpx : p x = false := hdisj x hx
      rw [List.find?_cons_of_neg _ (by simp [hy]), List.find?_cons_of_neg _ (by simp [hpx])]

theorem find?_filter_keep {α : Type} {p keep : α → Bool} {l : List α}
    (h : ∀ x, p x = true → keep x = true) :
    (l.filter keep).find? p = l.find? p := by
  induction l with
  | nil => rfl
  | cons x xs ih =>
    rcases hk : keep x with _ | _
    · have hpx : p x = false := by
        rcases hpx : p x with _ | _
        · rfl
        · rw [h x hpx] at hk
          cases hk
      rw [List.filter_cons_of_neg (by simp [hk]), List.find?_cons_of_neg _ (by simp [hpx])]
      exact ih
    · rw [List.filter_cons_of_pos (by simp [hk])]
      rcases hpx : p x with _ | _
      · rw [List.find?_cons_of_neg _ (by simp [hpx]), List.find?_cons_of_neg _ (by simp [hpx])]
        exact ih
      · rw [List.find?_cons_of_pos _ hpx, List.find?_cons_of_pos _ hpx]

theorem find?_setFirst_none {α : Type} {p q : α → Bool} {l : List α} {y : α}
    (h : l.find? p = none) (hy : p y = false) : (setFirst q y l).find? p = none := by
  induction l with
  | nil => rfl
  | cons x xs ih =>
    have hpx : p x = false := by
      rcases hpx : p x with _ | _
      · rfl
      · rw [List.find?_cons_of_pos _ hpx] at h
        cases h
    rw [List.find?_cons_of_neg _ (by simp [hpx])] at h
    unfold setFirst
    rcases hq : q x with _ | _
    · simp only [Bool.false_eq_true, if_false]
      rw [List.find?_cons_of_neg _ (by simp [hpx])]
      exact ih h
    · simp only [if_true]
      rw [List.find?_cons_of_neg _ (by simp [hy])]
      exact h

theorem find?_filter_none {α : Type} {p keep : α → Bool} {l : List α}
    (h : l.find? p = none) : (l.filter keep).find? p = none := by
  induction l with
  | nil => rfl
  | cons x xs ih =>
    have hpx : p x = false := by
      rcases hpx : p x with _ | _
      · rfl
      · rw [List.find?_cons_of_pos _ hpx] at h
        cases h
    rw [List.find?_cons_of_neg _ (by simp [hpx])] at h
    rcases hk : keep x with _ | _
    · rw [List.filter_cons_of_neg (by simp [hk])]
      exact ih h
    · rw [List.filter_cons_of_pos (by simp [hk]), List.find?_cons_of_neg _ (by simp [hpx])]
      exact ih h

theorem find?_filter_removed {α : Type} {p keep : α → Bool} {l : List α}
    (h : ∀ x, p x = true → keep x = false) : (l.filter keep).find? p = none := by
  induction l with
  | nil => rfl
  | cons x xs ih =>
    rcases hk : keep x with _ | _
    · rw [List.filter_cons_of_neg (by simp [hk])]
      exact ih
    · have hpx : p x = false := by
        rcases hpx : p x with _ | _
        · rfl
        · rw [h x hpx] at hk
          cases hk
      rw [List.filter_cons_of_pos (by simp [hk]), List.find?_cons_of_neg _ (by simp [hpx])]
      exact ih

/- ### Stamp advance lemmas -/

theorem removeFirstL_append (p v : List Char) : removeFirstL p (p ++ v) = v := by
  have hpre : p.isPrefixOf (p ++ v) = true := by
    rw [List.isPrefixOf_iff_prefix]
    exact List.prefix_append p v
  cases h : p ++ v with
  | nil =>
    rcases List.append_eq_nil.mp h with ⟨rfl, rfl⟩
    rfl
  | cons c cs =>
    rw [h] at hpre
    unfold removeFirstL
    rw [if_pos hpre, ← h]
    exact List.drop_left p v

/-- `stampValue.replace(prefix, '')` recovers the unformatted `nextValue`
that was stamped, since `stampValue = prefix + nextValue` and `replace`
removes the first (leftmost) occurrence. -/
theorem jsReplaceFirst_full (s : Sequence) :
    jsReplaceFirst (getFullValue s) s.pfx = s.nextValue := by
  refine stringExt ?_
  show removeFirstL s.pfx.data (getFullValue s).data = s.nextValue.data
  unfold getFullValue
  rw [String.data_append]
  exact removeFirstL_append _ _

theorem stampAdvance_eq (s : Sequence) :
    stampAdvance s = if cmpGT s.nextValue s.highestUsed s.type = true
      then { s with nextValue := incrementValue s, highestUsed := s.nextValue }
      else { s with nextValue := incrementValue s } := by
  simp only [stampAdvance]
  rw [jsReplaceFirst_full]

theorem stampAdvance_id (s : Sequence) : (stampAdvance s).id = s.id := by
  rw [stampAdvance_eq]
  split <;> rfl

theorem stampAdvance_type (s : Sequence) : (stampAdvance s).type = s.type := by
  rw [stampAdvance_eq]
  split <;> rfl

theorem stampAdvance_pfx (s : Sequence) : (stampAdvance s).pfx = s.pfx := by
  rw [stampAdvance_eq]
  split <;> rfl

theorem stampAdvance_mode (s : Sequence) : (stampAdvance s).mode = s.mode := by
  rw [stampAdvance_eq]
  split <;> rfl

theorem stampAdvance_locked (s : Sequence) : (stampAdvance s).locked = s.locked := by
  rw [stampAdvance_eq]
  split <;> rfl

theorem stampAdvance_nextValue (s : Sequence) :
    (stampAdvance s).nextValue = incrementValue s := by
  rw [stampAdvance_eq]
  split <;> rfl

theorem stampAdvance_highestUsed (s : Sequence) :
    (stampAdvance s).highestUsed =
      if cmpGT s.nextValue s.highestUsed s.type = true then s.nextValue
      else s.highestUsed := by
  rw [stampAdvance_eq]
  split <;> simp_all

theorem lockIfCompliance_id (s : Sequence) : (lockIfCompliance s).id = s.id := by
  unfold lockIfCompliance
  split <;> rfl

theorem lockIfCompliance_type (s : Sequence) : (lockIfCompliance s).type = s.type := by
  unfold lockIfCompliance
  split <;> rfl

theorem lockIfCompliance_pfx (s : Sequence) : (lockIfCompliance s).pfx = s.pfx := by
  unfold lockIfCompliance
  split <;> rfl

theorem lockIfCompliance_mode (s : Sequence) : (lockIfCompliance s).mode = s.mode := by
  unfold lockIfCompliance
  split <;> rfl

theorem lockIfCompliance_nextValue (s : Sequence) :
    (lockIfCompliance s).nextValue = s.nextValue := by
  unfold lockIfCompliance
  split <;> rfl

theorem lockIfCompliance_highestUsed (s : Sequence) :
    (lockIfCompliance s).highestUsed = s.highestUsed := by
  unfold lockIfCompliance
  split <;> rfl

theorem lockIfCompliance_locked_mono (s : Sequence) (h : s.locked = true) :
    (lockIfCompliance s).locked = true := by
  unfold lockIfCompliance
  split
  · rfl
  · exact h

theorem lockIfCompliance_locked_compliance (s : Sequence)
    (h : s.mode = SeqMode.compliance) : (lockIfCompliance s).locked = true := by
  unfold lockIfCompliance
  rw [if_pos (by simp [h])]

/- ### Per-sequence evolution across one step -/

/-- How a persisted sequence with a given id may change across one handler
dispatch: same id and type, a watermark that stays or strictly rises under
`compareValues`, and a `locked` flag that is never cleared. -/
def SeqEvolves (s s' : Sequence) : Prop :=
  s'.id = s.id ∧ s'.type = s.type ∧
  (s'.highestUsed = s.highestUsed ∨ cmpGT s'.highestUsed s.highestUsed s.type = true) ∧
  (s.locked = true → s'.locked = true)

theorem seqEvolves_refl (s : Sequence) : SeqEvolves s s :=
  ⟨rfl, rfl, Or.inl rfl, fun h => h⟩

theorem seqEvolves_trans {s1 s2 s3 : Sequence} (h12 : SeqEvolves s1 s2)
    (h23 : SeqEvolves s2 s3) : SeqEvolves s1 s3 := by
  obtain ⟨hid12, ht12, hh12, hl12⟩ := h12
  obtain ⟨hid23, ht23, hh23, hl23⟩ := h23
  refine ⟨hid23.trans hid12, ht23.trans ht12, ?_, fun h => hl23 (hl12 h)⟩
  rw [ht12] at hh23
  rcases hh12 with he12 | hg12
  · rw [he12] at hh23
    exact hh23
  · rcases hh23 with he23 | hg23
    · rw [he23]
      exact Or.inr hg12
    · exact Or.inr (cmpGT_trans hg23 hg12)

/-- Transfer of "not above the watermark" along an evolution. -/
theorem cmpGT_false_evolve {v : String} {s s' : Sequence} (he : SeqEvolves s s')
    (h : cmpGT v s.highestUsed s.type = false) :
    cmpGT v s'.highestUsed s'.type = false := by
  obtain ⟨-, ht, hh, -⟩ := he
  rw [ht]
  rcases hh with he' | hg
  · rw [he']
    exact h
  · rcases hx : cmpGT v s'.highestUsed s.type with _ | _
    · rfl
    · rw [cmpGT_trans hx hg] at h
      cases h

theorem stampAdvance_evolves (s : Sequence) : SeqEvolves s (stampAdvance s) := by
  refine ⟨stampAdvance_id s, stampAdvance_type s, ?_, ?_⟩
  · rw [stampAdvance_highestUsed]
    rcases hg : cmpGT s.nextValue s.highestUsed s.type with _ | _
    · simp only [Bool.false_eq_true, if_false]
      exact Or.inl trivial
    · simp only [if_true]
      exact Or.inr hg
  · intro h
    rw [stampAdvance_locked]
    exact h

theorem lockIfCompliance_evolves (s : Sequence) : SeqEvolves s (lockIfCompliance s) :=
  ⟨lockIfCompliance_id s, lockIfCompliance_type s,
   Or.inl (lockIfCompliance_highestUsed s), lockIfCompliance_locked_mono s⟩

/-- The id a `create-sequence` message would add. -/
def createId? : Msg → Option String
  | Msg.createSequence _ _ _ _ _ nid _ => some nid
  | _ => none

/-- Looking a sequence up by id, as every handler does. -/
def findSeq (sid : String) (l : List Sequence) : Option Sequence :=
  l.find? fun s => s.id == sid

theorem beq_id_false_of_find?_none {sid : String} {l : List Sequence} {x : Sequence}
    (h : l.find? (fun s => s.id == sid) = none) (hx : x ∈ l) : (x.id == sid) = false := by
  rcases hb : x.id == sid with _ | _
  · rfl
  · rw [List.find?_eq_none] at h
    exact absurd hb (h x hx)

/-- A sequence id absent from the store stays absent across any step that is
not a `create-sequence` with that id. -/
theorem findSeq_none_step (m : Msg) (st : PluginState) (sid : String)
    (h : findSeq sid st.sequences = none) (hc : createId? m ≠ some sid) :
    findSeq sid (step m st).1.sequences = none := by
  unfold findSeq at h ⊢
  cases m with
  | selectSequence i => exact h
  | close => exact h
  | unlink =>
    simp only [step, handleUnlink]
    rcases hsel : st.selection with _ | ⟨n1, rest⟩
    · try simp only [hsel]
      exact h
    · cases n1 <;> cases rest <;> (try simp only [hsel]) <;> exact h
  | relink nid =>
    simp only [step, handleRelink]
    rcases hsel : st.selection with _ | ⟨n1, rest⟩
    · try simp only [hsel]
      exact h
    · cases n1 <;> cases rest <;> (try simp only [hsel]) <;> exact h
  | createSequence n p v t md nid now =>
    have hnid : (nid == sid) = false := by
      rcases hb : nid == sid with _ | _
      · rfl
      · exfalso
        apply hc
        rw [eq_of_beq hb]
        rfl
    simp only [step, handleCreate]
    rw [find?_append_none h]
    simp [hnid]
  | deleteSequence mid =>
    simp only [step, handleDelete]
    rcases hf : List.find? (fun s => s.id == mid) st.sequences with _ | sequence
    · try simp only [hf]
      exact h
    · try simp only [hf]
      split
      · split
        · exact h
        · simp only [doDeleteSequence]
          exact find?_filter_none h
      · simp only [doDeleteSequence]
        exact find?_filter_none h
  | linkAndStamp sid' now =>
    simp only [step, handleLinkAndStamp]
    rcases hsel : st.selection with _ | ⟨n1, rest⟩
    · try simp only [hsel]
      exact h
    · cases n1 with
      | container cid cs =>
        cases rest <;> (try simp only [hsel]) <;> exact h
      | text node =>
        cases rest with
        | cons n2 r2 =>
          try simp only [hsel]
          exact h
        | nil =>
          try simp only [hsel]
          rcases hf : List.find? (fun s => s.id == sid') st.sequences with _ | sequence
          · try simp only [hf]
            exact h
          · try simp only [hf]
            refine find?_setFirst_none h ?_
            rw [lockIfCompliance_id, stampAdvance_id]
            exact beq_id_false_of_find?_none h (List.mem_of_find?_eq_some hf)
  | stamp now =>
    simp only [step, handleStamp]
    rcases hsel : st.selection with _ | ⟨n1, rest⟩
    · try simp only [hsel]
      exact h
    · cases n1 with
      | container cid cs =>
        cases rest <;> (try simp only [hsel]) <;> exact h
      | text node =>
        cases rest with
        | cons n2 r2 =>
          try simp only [hsel]
          exact h
        | nil =>
          try simp only [hsel]
          split
          · exact h
          · rcases hf : List.find? (fun s => s.id == node.sequenceId) st.sequences with _ | sequence
            · try simp only [hf]
              exact h
            · try simp only [hf]
              split
              · exact h
              · refine find?_setFirst_none h ?_
                rw [stampAdvance_id]
                exact beq_id_false_of_find?_none h (List.mem_of_find?_eq_some hf)
  | reset rsid v =>
    simp only [step, handleReset]
    rcases hf : List.find? (fun s => s.id == rsid) st.sequences with _ | sequence
    · try simp only [hf]
      exact h
    · try simp only [hf]
      split
      · exact h
      · refine find?_setFirst_none h ?_
        show (sequence.id == sid) = false
        exact beq_id_false_of_find?_none h (List.mem_of_find?_eq_some hf)

theorem find?_id_beq {sid : String} {l : List Sequence} {s : Sequence}
    (h : l.find? (fun x => x.id == sid) = some s) : (s.id == sid) = true := by
  have := List.find?_some h
  simpa using this

/-- The evolution case of a handler that replaces the first sequence whose
id is `tid` by an evolved record `y`. -/
theorem findSeq_setFirst_case {sid tid : String} {l : List Sequence} {s target y : Sequence}
    (h : l.find? (fun x => x.id == sid) = some s)
    (hf : l.find? (fun x => x.id == tid) = some target)
    (hy : y.id = target.id)
    (he : SeqEvolves target y) :
    ∃ s', (setFirst (fun x => x.id == tid) y l).find? (fun x => x.id == sid) = some s' ∧
      SeqEvolves s s' := by
  by_cases hid : sid = tid
  · subst hid
    rw [h] at hf
    injection hf with hf
    subst hf
    refine ⟨y, ?_, he⟩
    refine find?_setFirst_self h ?_
    show (y.id == sid) = true
    rw [hy]
    exact find?_id_beq h
  · have hdisj : ∀ x : Sequence, (x.id == tid) = true → (x.id == sid) = false := by
      intro x hx
      rcases hb : x.id == sid with _ | _
      · rfl
      · exact absurd ((eq_of_beq hb).symm.trans (eq_of_beq hx)) hid
    have hyp : (y.id == sid) = false := by
      rw [hy]
      exact hdisj target (find?_id_beq hf)
    refine ⟨s, ?_, seqEvolves_refl s⟩
    rw [@find?_setFirst_other Sequence (fun x => x.id == sid) (fun x => x.id == tid) l y hdisj hyp]
    exact h

/-- Across any single step, a sequence present in the store is either
deleted or evolves (same id and type, watermark non-decreasing under
`compareValues`, `locked` never cleared). -/
theorem findSeq_some_step (m : Msg) (st : PluginState) (sid : String) (s : Sequence)
    (h : findSeq sid st.sequences = some s) :
    findSeq sid (step m st).1.sequences = none ∨
    ∃ s', findSeq sid (step m st).1.sequences = some s' ∧ SeqEvolves s s' := by
  unfold findSeq at h ⊢
  cases m with
  | selectSequence i => exact Or.inr ⟨s, h, seqEvolves_refl s⟩
  | close => exact Or.inr ⟨s, h, seqEvolves_refl s⟩
  | unlink =>
    refine Or.inr ⟨s, ?_, seqEvolves_refl s⟩
    simp only [step, handleUnlink]
    rcases hsel : st.selection with _ | ⟨n1, rest⟩
    · try simp only [hsel]
      exact h
    · cases n1 <;> cases rest <;> (try simp only [hsel]) <;> exact h
  | relink nid =>
    refine Or.inr ⟨s, ?_, seqEvolves_refl s⟩
    simp only [step, handleRelink]
    rcases hsel : st.selection with _ | ⟨n1, rest⟩
    · try simp only [hsel]
      exact h
    · cases n1 <;> cases rest <;> (try simp only [hsel]) <;> exact h
  | createSequence n p v t md nid now =>
    refine Or.inr ⟨s, ?_, seqEvolves_refl s⟩
    simp only [step, handleCreate]
    exact find?_append_some h
  | deleteSequence mid =>
    simp only [step, handleDelete]
    rcases hf : List.find? (fun x => x.id == mid) st.sequences with _ | sequence
    · try simp only [hf]
      exact Or.inr ⟨s, h, seqEvolves_refl s⟩
    · try simp only [hf]
      split
      · split
        · exact Or.inr ⟨s, h, seqEvolves_refl s⟩
        · simp only [doDeleteSequence]
          by_cases hid : sid = mid
          · subst hid
            refine Or.inl (find?_filter_removed ?_)
            intro x hx
            simp [eq_of_beq hx]
          · refine Or.inr ⟨s, ?_, seqEvolves_refl s⟩
            rw [find?_filter_keep]
            · exact h
            · intro x hx
              simp only [Bool.not_eq_true']
              rcases hb : x.id == mid with _ | _
              · rfl
              · exact absurd ((eq_of_beq hx).symm.trans (eq_of_beq hb)) hid
      · simp only [doDeleteSequence]
        by_cases hid : sid = mid
        · subst hid
          refine Or.inl (find?_filter_removed ?_)
          intro x hx
          simp [eq_of_beq hx]
        · refine Or.inr ⟨s, ?_, seqEvolves_refl s⟩
          rw [find?_filter_keep]
          · exact h
          · intro x hx
            simp only [Bool.not_eq_true']
            rcases hb : x.id == mid with _ | _
            · rfl
            · exact absurd ((eq_of_beq hx).symm.trans (eq_of_beq hb)) hid
  | linkAndStamp sid' now =>
    simp only [step, handleLinkAndStamp]
    rcases hsel : st.selection with _ | ⟨n1, rest⟩
    · try simp only [hsel]
      exact Or.inr ⟨s, h, seqEvolves_refl s⟩
    · cases n1 with
      | container cid cs =>
        cases rest <;> (try simp only [hsel]) <;> exact Or.inr ⟨s, h, seqEvolves_refl s⟩
      | text node =>
        cases rest with
        | cons n2 r2 =>
          try simp only [hsel]
          exact Or.inr ⟨s, h, seqEvolves_refl s⟩
        | nil =>
          try simp only [hsel]
          rcases hf : List.find? (fun x => x.id == sid') st.sequences with _ | sequence
          · try simp only [hf]
            exact Or.inr ⟨s, h, seqEvolves_refl s⟩
          · try simp only [hf]
            refine Or.inr (findSeq_setFirst_case h hf ?_ ?_)
            · rw [lockIfCompliance_id, stampAdvance_id]
            · exact seqEvolves_trans (stampAdvance_evolves sequence)
                (lockIfCompliance_evolves (stampAdvance sequence))
  | stamp now =>
    simp only [step, handleStamp]
    rcases hsel : st.selection with _ | ⟨n1, rest⟩
    · try simp only [hsel]
      exact Or.inr ⟨s, h, seqEvolves_refl s⟩
    · cases n1 with
      | container cid cs =>
        cases rest <;> (try simp only [hsel]) <;> exact Or.inr ⟨s, h, seqEvolves_refl s⟩
      | text node =>
        cases rest with
        | cons n2 r2 =>
          try simp only [hsel]
          exact Or.inr ⟨s, h, seqEvolves_refl s⟩
        | nil =>
          try simp only [hsel]
          split
          · exact Or.inr ⟨s, h, seqEvolves_refl s⟩
          · rcases hf : List.find? (fun x => x.id == node.sequenceId) st.sequences with _ | sequence
            · try simp only [hf]
              exact Or.inr ⟨s, h, seqEvolves_refl s⟩
            · try simp only [hf]
              split
              · exact Or.inr ⟨s, h, seqEvolves_refl s⟩
              · refine Or.inr (findSeq_setFirst_case h hf ?_ ?_)
                · rw [stampAdvance_id]
                · exact stampAdvance_evolves sequence
  | reset rsid v =>
    simp only [step, handleReset]
    rcases hf : List.find? (fun x => x.id == rsid) st.sequences with _ | sequence
    · try simp only [hf]
      exact Or.inr ⟨s, h, seqEvolves_refl s⟩
    · try simp only [hf]
      split
      · exact Or.inr ⟨s, h, seqEvolves_refl s⟩
      · refine Or.inr (findSeq_setFirst_case h hf rfl ?_)
        exact ⟨rfl, rfl, Or.inl rfl, fun hl => hl⟩

/-- Every `stamped` output comes from a stamp handler in its success branch:
the store held a sequence `s0` under the posted id, the stamped value is its
full value, the posted sequence is its advance (locked or not), and the new
store replaces `s0` by the posted sequence. -/
theorem step_stamped {m : Msg} {st : PluginState} {v : String} {s3 : Sequence}
    (h : (step m st).2 = Out.stamped v s3) :
    ∃ s0 tid, List.find? (fun x => x.id == tid) st.sequences = some s0 ∧
      s0.id = tid ∧ v = getFullValue s0 ∧
      (s3 = stampAdvance s0 ∨ s3 = lockIfCompliance (stampAdvance s0)) ∧
      (step m st).1.sequences = setFirst (fun x => x.id == tid) s3 st.sequences := by
  cases m with
  | selectSequence i => cases h
  | close => cases h
  | unlink =>
    simp only [step, handleUnlink] at h ⊢
    rcases hsel : st.selection with _ | ⟨n1, rest⟩ <;> try simp only [hsel] at h
    · cases h
    · cases n1 <;> cases rest <;> (try simp only [hsel] at h) <;> cases h
  | relink nid =>
    simp only [step, handleRelink] at h ⊢
    rcases hsel : st.selection with _ | ⟨n1, rest⟩ <;> try simp only [hsel] at h
    · cases h
    · cases n1 <;> cases rest <;> (try simp only [hsel] at h) <;> cases h
  | createSequence n p v' t md nid now =>
    cases h
  | deleteSequence mid =>
    simp only [step, handleDelete] at h ⊢
    rcases hf : List.find? (fun x => x.id == mid) st.sequences with _ | sequence <;>
      try simp only [hf] at h
    · cases h
    · split at h
      · split at h
        · cases h
        · simp only [doDeleteSequence] at h
          cases h
      · simp only [doDeleteSequence] at h
        cases h
  | linkAndStamp sid' now =>
    simp only [step, handleLinkAndStamp] at h ⊢
    rcases hsel : st.selection with _ | ⟨n1, rest⟩ <;> try simp only [hsel] at h ⊢
    · cases h
    · cases n1 with
      | container cid cs =>
        cases rest <;> (try simp only [hsel] at h ⊢) <;> cases h
      | text node =>
        cases rest with
        | cons n2 r2 =>
          try simp only [hsel] at h ⊢
          cases h
        | nil =>
          try simp only [hsel] at h ⊢
          rcases hf : List.find? (fun x => x.id == sid') st.sequences with _ | sequence <;>
            try simp only [hf] at h ⊢
          · cases h
          · injection h with h1 h2
            refine ⟨sequence, sid', hf, eq_of_beq (find?_id_beq hf), h1.symm, ?_, ?_⟩
            · rw [← h2]
              exact Or.inr rfl
            · rw [← h2]
              rfl
  | stamp now =>
    simp only [step, handleStamp] at h ⊢
    rcases hsel : st.selection with _ | ⟨n1, rest⟩
    · try simp only [hsel] at h
      cases h
    · cases n1 with
      | container cid cs =>
        cases rest <;> (try simp only [hsel] at h) <;> cases h
      | text node =>
        cases rest with
        | cons n2 r2 =>
          try simp only [hsel] at h
          cases h
        | nil =>
          try simp only [hsel] at h ⊢
          rcases hlk : node.sequenceId == "" with _ | _
          · try simp only [hlk, Bool.false_eq_true, if_false] at h ⊢
            rcases hf : List.find? (fun x => x.id == node.sequenceId) st.sequences with _ | sequence
            · try simp only [hf] at h
              cases h
            · try simp only [hf] at h ⊢
              rcases hgd : (sequence.mode == SeqMode.compliance && !(node.stampedValue == "") &&
                  !(isStampedValueDuplicated node.stampedValue node.id st.page)) with _ | _
              · try simp only [hgd, Bool.false_eq_true, if_false] at h ⊢
                injection h with h1 h2
                refine ⟨sequence, node.sequenceId, hf, eq_of_beq (find?_id_beq hf),
                  h1.symm, ?_, ?_⟩
                · rw [← h2]
                  exact Or.inl rfl
                · rw [← h2]
                  rfl
              · try simp only [hgd, eq_self_iff_true, if_true] at h
                cases h
          · try simp only [hlk, eq_self_iff_true, if_true] at h
            cases h
  | reset rsid v' =>
    simp only [step, handleReset] at h ⊢
    rcases hf : List.find? (fun x => x.id == rsid) st.sequences with _ | sequence <;>
      try simp only [hf] at h
    · cases h
    · split at h
      · cases h
      · cases h

/-- The value issued by one step for `sid` is, right after the step, not
above the watermark of the (still present) sequence. -/
theorem issued_step (m : Msg) (st : PluginState) (sid : String) :
    ∀ v ∈ issuedOf m st sid,
      ∃ s', findSeq sid (step m st).1.sequences = some s' ∧
        cmpGT v s'.highestUsed s'.type = false := by
  intro v hv
  unfold issuedOf at hv
  cases hout : (step m st).2 with
  | silent =>
    try simp only [hout] at hv
    simp at hv
  | error msg =>
    try simp only [hout] at hv
    simp at hv
  | sequenceCreated s4 =>
    try simp only [hout] at hv
    simp at hv
  | sequenceDeleted =>
    try simp only [hout] at hv
    simp at hv
  | unlinked =>
    try simp only [hout] at hv
    simp at hv
  | relinked =>
    try simp only [hout] at hv
    simp at hv
  | resetDone s4 =>
    try simp only [hout] at hv
    simp at hv
  | stamped v0 s3 =>
    try simp only [hout] at hv
    rcases hsid : s3.id == sid with _ | _ <;>
      simp only [hsid, Bool.false_eq_true, eq_self_iff_true, if_true, if_false] at hv
    · simp at hv
    · rw [List.mem_singleton] at hv
      subst hv
      obtain ⟨s0, tid, hf, hid0, hv0, hs3, hseqs⟩ := step_stamped hout
      have hs3id : s3.id = s0.id := by
        rcases hs3 with rfl | rfl
        · exact stampAdvance_id s0
        · rw [lockIfCompliance_id, stampAdvance_id]
      have hsid' : sid = tid := by
        rw [← eq_of_beq hsid, hs3id, hid0]
      have hpfx : s3.pfx = s0.pfx := by
        rcases hs3 with rfl | rfl
        · exact stampAdvance_pfx s0
        · rw [lockIfCompliance_pfx, stampAdvance_pfx]
      have hvval : jsReplaceFirst v0 s3.pfx = s0.nextValue := by
        rw [hv0, hpfx]
        exact jsReplaceFirst_full s0
      refine ⟨s3, ?_, ?_⟩
      · unfold findSeq
        rw [hseqs, hsid']
        refine find?_setFirst_self hf ?_
        show (s3.id == tid) = true
        rw [hs3id]
        exact find?_id_beq hf
      · rw [hvval]
        rcases hs3 with rfl | rfl
        · rw [stampAdvance_type, stampAdvance_highestUsed]
          rcases hg : cmpGT s0.nextValue s0.highestUsed s0.type with _ | _
          · simpa using hg
          · simp only [if_true]
            exact cmpGT_self_false _ _
        · rw [lockIfCompliance_type, lockIfCompliance_highestUsed,
            stampAdvance_type, stampAdvance_highestUsed]
          rcases hg : cmpGT s0.nextValue s0.highestUsed s0.type with _ | _
          · simpa using hg
          · simp only [if_true]
            exact cmpGT_self_false _ _

theorem findSeq_none_run (msgs : List Msg) (st : PluginState) (sid : String)
    (h : findSeq sid st.sequences = none) (hc : ∀ m ∈ msgs, createId? m ≠ some sid) :
    findSeq sid (run msgs st).sequences = none := by
  induction msgs generalizing st with
  | nil => exact h
  | cons m ms ih =>
    rw [run]
    exact ih (step m st).1 (findSeq_none_step m st sid h (hc m (List.mem_cons_self m ms)))
      fun m' hm' => hc m' (List.mem_cons_of_mem m hm')

/-- Along a run that never re-creates id `sid`, every issued value for `sid`
stays at or below the final watermark, and the final sequence is an
evolution of the initial one. -/
theorem issuedRun_le (msgs : List Msg) (st : PluginState) (sid : String) (s_f : Sequence)
    (hc : ∀ m ∈ msgs, createId? m ≠ some sid)
    (hfin : findSeq sid (run msgs st).sequences = some s_f) :
    (∀ v ∈ issuedRun sid msgs st, cmpGT v s_f.highestUsed s_f.type = false) ∧
    (∀ s0, findSeq sid st.sequences = some s0 → SeqEvolves s0 s_f) := by
  induction msgs generalizing st with
  | nil =>
    constructor
    · intro v hv
      simp [issuedRun] at hv
    · intro s0 h0
      rw [run] at hfin
      rw [h0] at hfin
      injection hfin with hfin
      rw [← hfin]
      exact seqEvolves_refl s0
  | cons m ms ih =>
    rw [run] at hfin
    have hcm : createId? m ≠ some sid := hc m (List.mem_cons_self m ms)
    have hcs : ∀ m' ∈ ms, createId? m' ≠ some sid :=
      fun m' hm' => hc m' (List.mem_cons_of_mem m hm')
    obtain ⟨ihIss, ihEv⟩ := ih (step m st).1 hcs hfin
    constructor
    · intro v hv
      rw [issuedRun] at hv
      rcases List.mem_append.mp hv with hv | hv
      · obtain ⟨s1, hfind1, hle⟩ := issued_step m st sid v hv
        exact cmpGT_false_evolve (ihEv s1 hfind1) hle
      · exact ihIss v hv
    · intro s0 h0
      rcases findSeq_some_step m st sid s0 h0 with hnone | ⟨s1, hfind1, hev⟩
      · exact absurd (findSeq_none_run ms (step m st).1 sid hnone hcs)
          (by rw [hfin]; simp)
      · exact seqEvolves_trans hev (ihEv s1 hfind1)

/-- Claim C2: `highestUsed` never decreases across any operation (same id and
type, and the new value is equal or strictly greater under `compareValues`);
on every successful stamp it is raised to the stamped unformatted value
(`stampValue.replace(prefix, '')`, which equals the `nextValue` that was
stamped) exactly when that value compares greater than the current
`highestUsed` under `compareValues`; and along any run that does not
re-create the id, no value ever issued by a sequence compares greater than
its final `highestUsed`. -/
theorem C2_highestUsed_watermark :
    (∀ (m : Msg) (st : PluginState) (sid : String) (s s' : Sequence),
      findSeq sid st.sequences = some s →
      findSeq sid (step m st).1.sequences = some s' →
      s'.type = s.type ∧
        (s'.highestUsed = s.highestUsed ∨ cmpGT s'.highestUsed s.highestUsed s.type = true)) ∧
    (∀ (m : Msg) (st : PluginState) (v : String) (s3 : Sequence),
      (step m st).2 = Out.stamped v s3 →
      ∃ s0, findSeq s3.id st.sequences = some s0 ∧ v = getFullValue s0 ∧
        jsReplaceFirst v s3.pfx = s0.nextValue ∧
        s3.highestUsed = (if cmpGT s0.nextValue s0.highestUsed s0.type = true
          then s0.nextValue else s0.highestUsed)) ∧
    (∀ (msgs : List Msg) (st : PluginState) (sid : String) (s_f : Sequence),
      (∀ m ∈ msgs, createId? m ≠ some sid) →
      findSeq sid (run msgs st).sequences = some s_f →
      ∀ v ∈ issuedRun sid msgs st, cmpGT v s_f.highestUsed s_f.type = false) := by
  refine ⟨?_, ?_, ?_⟩
  · intro m st sid s s' h h'
    rcases findSeq_some_step m st sid s h with hnone | ⟨s'', hfind, hev⟩
    · rw [h'] at hnone
      cases hnone
    · rw [h'] at hfind
      injection hfind with hfind
      subst hfind
      exact ⟨hev.2.1, hev.2.2.1⟩
  · intro m st v s3 h
    obtain ⟨s0, tid, hf, hid0, hv0, hs3, -⟩ := step_stamped h
    have hs3id : s3.id = s0.id := by
      rcases hs3 with rfl | rfl
      · exact stampAdvance_id s0
      · rw [lockIfCompliance_id, stampAdvance_id]
    have hpfx : s3.pfx = s0.pfx := by
      rcases hs3 with rfl | rfl
      · exact stampAdvance_pfx s0
      · rw [lockIfCompliance_pfx, stampAdvance_pfx]
    refine ⟨s0, ?_, hv0, ?_, ?_⟩
    · unfold findSeq
      rw [hs3id, hid0]
      exact hf
    · rw [hv0, hpfx]
      exact jsReplaceFirst_full s0
    · rcases hs3 with rfl | rfl
      · exact stampAdvance_highestUsed s0
      · rw [lockIfCompliance_highestUsed]
        exact stampAdvance_highestUsed s0
  · intro msgs st sid s_f hc hfin
    exact (issuedRun_le msgs st sid s_f hc hfin).1

/- ### Concrete states for witnesses and counterexamples -/

/-- A text node linked to sequence `s1` but never stamped (as `relink`
produces: only `sequenceId` is set). -/
def tnode1 : TextNode where
  id := "n1"
  characters := ""
  sequenceId := "s1"
  stampedValue := ""
  stampedAt := ""

/-- A compliance-mode number sequence that has never been stamped. -/
def seq1 : Sequence where
  id := "s1"
  name := "Invoice"
  pfx := ""
  nextValue := "0001"
  highestUsed := "0"
  type := SeqType.number
  mode := SeqMode.compliance
  locked := false
  createdAt := 0

/-- The plugin state holding `seq1` with `tnode1` selected on the page. -/
def state1 : PluginState where
  sequences := [seq1]
  selectedId := "s1"
  page := Node.container "page" [Node.text tnode1]
  selection := [Node.text tnode1]

/-- `seq1` after one successful `stamp`: advanced and watermarked, but still
not locked. -/
def seq1Stamped : Sequence where
  id := "s1"
  name := "Invoice"
  pfx := ""
  nextValue := "0002"
  highestUsed := "0001"
  type := SeqType.number
  mode := SeqMode.compliance
  locked := false
  createdAt := 0

/-- `seq1` after one successful `link-and-stamp`: advanced, watermarked and
locked. -/
def seq1Locked : Sequence where
  id := "s1"
  name := "Invoice"
  pfx := ""
  nextValue := "0002"
  highestUsed := "0001"
  type := SeqType.number
  mode := SeqMode.compliance
  locked := true
  createdAt := 0

/-- Witness for C2 on a one-stamp run from `state1`: the issued value
`"0001"` does not compare greater than the final watermark. -/
theorem C2_highestUsed_watermark_witness :
    cmpGT "0001" seq1Stamped.highestUsed seq1Stamped.type = false := by
  have h := C2_highestUsed_watermark
  refine h.2.2 [Msg.stamp 7] state1 "s1" seq1Stamped ?_ ?_ "0001" ?_
  · intro m hm
    rw [List.mem_singleton] at hm
    subst hm
    decide
  · rfl
  · decide

/-- Claim C4 counterexample: from `state1` (a compliance sequence with
`locked = false`, its selected node linked but with no stamped value, as
`relink` leaves it), the `stamp` handler succeeds — it posts `stamped` and
advances the sequence — yet the persisted sequence still has
`locked = false`: the stamp handler never sets `locked`. -/
theorem C4_locked_cex :
    (step (Msg.stamp 5) state1).2 = Out.stamped "0001" seq1Stamped ∧
    seq1.mode = SeqMode.compliance ∧ seq1.locked = false ∧
    seq1Stamped.mode = SeqMode.compliance ∧ seq1Stamped.locked = false ∧
    findSeq "s1" (step (Msg.stamp 5) state1).1.sequences = some seq1Stamped :=
  ⟨rfl, rfl, rfl, rfl, rfl, rfl⟩

/-- Claim C4 (amended): a successful `link-and-stamp` on a compliance-mode
sequence always leaves `locked = true`, and once `locked` is true no
operation ever resets it; but the `stamp` (re-stamp) handler leaves `locked`
exactly as it was, so a compliance sequence that was never link-and-stamped
can be successfully stamped with `locked` remaining false. -/
theorem C4_locked_amended :
    (∀ (sid : String) (now : Nat) (st : PluginState) (v : String) (s3 : Sequence),
      (handleLinkAndStamp sid now st).2 = Out.stamped v s3 →
      s3.mode = SeqMode.compliance → s3.locked = true) ∧
    (∀ (now : Nat) (st : PluginState) (v : String) (s3 : Sequence),
      (handleStamp now st).2 = Out.stamped v s3 →
      ∃ s0, findSeq s3.id st.sequences = some s0 ∧ s3.locked = s0.locked) ∧
    (∀ (m : Msg) (st : PluginState) (sid : String) (s s' : Sequence),
      findSeq sid st.sequences = some s →
      findSeq sid (step m st).1.sequences = some s' →
      s.locked = true → s'.locked = true) := by
  refine ⟨?_, ?_, ?_⟩
  · intro sid now st v s3 h hmode
    simp only [handleLinkAndStamp] at h
    rcases hsel : st.selection with _ | ⟨n1, rest⟩
    · try simp only [hsel] at h
      cases h
    · cases n1 with
      | container cid cs =>
        cases rest <;> (try simp only [hsel] at h) <;> cases h
      | text node =>
        cases rest with
        | cons n2 r2 =>
          try simp only [hsel] at h
          cases h
        | nil =>
          try simp only [hsel] at h
          rcases hf : List.find? (fun x => x.id == sid) st.sequences with _ | sequence
          · try simp only [hf] at h
            cases h
          · try simp only [hf] at h
            injection h with h1 h2
            rw [← h2]
            refine lockIfCompliance_locked_compliance _ ?_
            rw [← h2, lockIfCompliance_mode] at hmode
            exact hmode
  · intro now st v s3 h
    simp only [handleStamp] at h
    rcases hsel : st.selection with _ | ⟨n1, rest⟩
    · try simp only [hsel] at h
      cases h
    · cases n1 with
      | container cid cs =>
        cases rest <;> (try simp only [hsel] at h) <;> cases h
      | text node =>
        cases rest with
        | cons n2 r2 =>
          try simp only [hsel] at h
          cases h
        | nil =>
          try simp only [hsel] at h
          rcases hlk : node.sequenceId == "" with _ | _
          · try simp only [hlk, Bool.false_eq_true, if_false] at h
            rcases hf : List.find? (fun x => x.id == node.sequenceId) st.sequences with _ | sequence
            · try simp only [hf] at h
              cases h
            · try simp only [hf] at h
              rcases hgd : (sequence.mode == SeqMode.compliance && !(node.stampedValue == "") &&
                  !(isStampedValueDuplicated node.stampedValue node.id st.page)) with _ | _
              · try simp only [hgd, Bool.false_eq_true, if_false] at h
                injection h with h1 h2
                refine ⟨sequence, ?_, ?_⟩
                · unfold findSeq
                  rw [← h2, stampAdvance_id]
                  rw [eq_of_beq (find?_id_beq hf)]
                  exact hf
                · rw [← h2]
                  exact stampAdvance_locked sequence
              · try simp only [hgd, eq_self_iff_true, if_true] at h
                cases h
          · try simp only [hlk, eq_self_iff_true, if_true] at h
            cases h
  · intro m st sid s s' h h' hl
    rcases findSeq_some_step m st sid s h with hnone | ⟨s'', hfind, hev⟩
    · rw [h'] at hnone
      cases hnone
    · rw [h'] at hfind
      injection hfind with hfind
      subst hfind
      exact hev.2.2.2 hl

/-- Witness for the amended C4: `link-and-stamp` on `state1` succeeds and
the persisted compliance sequence comes out locked. -/
theorem C4_locked_amended_witness :
    (handleLinkAndStamp "s1" 3 state1).2 = Out.stamped "0001" seq1Locked ∧
    seq1Locked.locked = true := by
  have h := C4_locked_amended
  exact ⟨rfl, h.1 "s1" 3 state1 "0001" seq1Locked rfl rfl⟩

/- ### Claim C1: the reset guard -/

/-- The sequence after an accepted reset: `nextValue = msg.value.trim()`,
everything else (in particular `highestUsed`) unchanged. -/
def resetSeq (v : String) (s : Sequence) : Sequence :=
  { s with nextValue := jsTrim v }

/-- The state after an accepted reset for `sid`. -/
def resetState (sid v : String) (s : Sequence) (st : PluginState) : PluginState :=
  { st with sequences := setFirst (fun x => x.id == sid) (resetSeq v s) st.sequences }

/-- Claim C1: for a compliance-mode sequence, a reset whose value parses no
greater than `highestUsed` is rejected with an error and the whole state
(hence `nextValue` and `highestUsed`) is unchanged; one that parses strictly
greater is accepted and sets `nextValue` to the (trimmed) requested value,
leaving `highestUsed` unchanged; for a design-mode sequence every reset is
accepted. -/
theorem C1_reset_guard (st : PluginState) (sid v : String) (s : Sequence)
    (hf : findSeq sid st.sequences = some s) :
    (s.mode = SeqMode.compliance →
      ∀ nv hv : Int, parseIntJS v = some nv → parseIntJS s.highestUsed = some hv →
        (nv ≤ hv →
          handleReset sid v st = (st, Out.error ("Cannot set below highest used (" ++
            s.pfx ++ s.highestUsed ++ ")"))) ∧
        (hv < nv →
          handleReset sid v st = (resetState sid v s st, Out.resetDone (resetSeq v s)))) ∧
    (s.mode = SeqMode.design →
      handleReset sid v st = (resetState sid v s st, Out.resetDone (resetSeq v s))) := by
  unfold findSeq at hf
  constructor
  · intro hmode nv hv hpv hph
    have hbeq : (s.mode == SeqMode.compliance) = true := by
      rw [hmode]
      rfl
    constructor
    · intro hle
      have hcond : (s.mode == SeqMode.compliance &&
          jsLE (parseIntJS v) (parseIntJS s.highestUsed)) = true := by
        rw [hbeq, hpv, hph]
        simp only [Bool.true_and, jsLE, decide_eq_true_eq]
        exact hle
      simp only [handleReset, hf, hcond, eq_self_iff_true, if_true]
    · intro hlt
      have hcond : (s.mode == SeqMode.compliance &&
          jsLE (parseIntJS v) (parseIntJS s.highestUsed)) = false := by
        rw [hbeq, hpv, hph]
        simp only [Bool.true_and, jsLE, decide_eq_false_iff_not]
        omega
      simp only [handleReset, hf, hcond, Bool.false_eq_true, if_false]
      rfl
  · intro hmode
    have hbeq : (s.mode == SeqMode.compliance) = false := by
      rw [hmode]
      rfl
    have hcond : (s.mode == SeqMode.compliance &&
        jsLE (parseIntJS v) (parseIntJS s.highestUsed)) = false := by
      rw [hbeq]
      rfl
    simp only [handleReset, hf, hcond, Bool.false_eq_true, if_false]
    rfl

/-- A compliance sequence with watermark `"0050"` (Scenario C). -/
def seqC : Sequence where
  id := "sc"
  name := "PO"
  pfx := ""
  nextValue := "0060"
  highestUsed := "0050"
  type := SeqType.number
  mode := SeqMode.compliance
  locked := true
  createdAt := 0

/-- State holding `seqC` (page and selection are irrelevant to `reset`). -/
def stateC : PluginState where
  sequences := [seqC]
  selectedId := "sc"
  page := Node.container "page" []
  selection := []

/-- Witness for C1 at Scenario C: `reset("0050")` and `reset("0030")` are
rejected unchanged, `reset("0051")` is accepted. -/
theorem C1_reset_guard_witness :
    handleReset "sc" "0050" stateC = (stateC, Out.error "Cannot set below highest used (0050)") ∧
    handleReset "sc" "0030" stateC = (stateC, Out.error "Cannot set below highest used (0050)") ∧
    (handleReset "sc" "0051" stateC).2 = Out.resetDone { seqC with nextValue := "0051" } := by
  have h50 := C1_reset_guard stateC "sc" "0050" seqC rfl
  have h30 := C1_reset_guard stateC "sc" "0030" seqC rfl
  have h51 := C1_reset_guard stateC "sc" "0051" seqC rfl
  refine ⟨?_, ?_, ?_⟩
  · exact ((h50.1 rfl 50 50 rfl rfl).1 (by omega))
  · exact ((h30.1 rfl 30 50 rfl rfl).1 (by omega))
  · rw [(h51.1 rfl 51 50 rfl rfl).2 (by omega)]
    rfl

/- ### Claim C3: the compliance re-stamp guard -/

/-- Claim C3: for a selected text element linked (with a nonempty
`stampedValue`) to a compliance-mode sequence, the `stamp` handler is denied
— error posted, state fully unchanged — exactly when the stamped value is
not duplicated on another text element of the current page; when it is
duplicated, the re-stamp proceeds and posts `stamped`. -/
theorem C3_restamp_guard (st : PluginState) (now : Nat) (t : TextNode) (s : Sequence)
    (hsel : st.selection = [Node.text t])
    (hlink : (t.sequenceId == "") = false)
    (hf : findSeq t.sequenceId st.sequences = some s)
    (hmode : s.mode = SeqMode.compliance)
    (hval : (t.stampedValue == "") = false) :
    (isStampedValueDuplicated t.stampedValue t.id st.page = false →
      handleStamp now st = (st, Out.error "Cannot re-stamp in compliance mode")) ∧
    (isStampedValueDuplicated t.stampedValue t.id st.page = true →
      (handleStamp now st).2 = Out.stamped (getFullValue s) (stampAdvance s)) := by
  unfold findSeq at hf
  have hb1 : (s.mode == SeqMode.compliance) = true := by
    rw [hmode]
    rfl
  constructor
  · intro hdup
    have hcond : (s.mode == SeqMode.compliance && !(t.stampedValue == "") &&
        !(isStampedValueDuplicated t.stampedValue t.id st.page)) = true := by
      rw [hb1, hval, hdup]
      rfl
    simp only [handleStamp, hsel, hlink, Bool.false_eq_true, if_false, hf, hcond,
      eq_self_iff_true, if_true]
  · intro hdup
    have hcond : (s.mode == SeqMode.compliance && !(t.stampedValue == "") &&
        !(isStampedValueDuplicated t.stampedValue t.id st.page)) = false := by
      rw [hb1, hval, hdup]
      rfl
    simp only [handleStamp, hsel, hlink, Bool.false_eq_true, if_false, hf, hcond]

/-- A locked compliance sequence whose value `"A-1"` has been stamped. -/
def seqD : Sequence where
  id := "sd"
  name := "Doc"
  pfx := "A-"
  nextValue := "2"
  highestUsed := "1"
  type := SeqType.number
  mode := SeqMode.compliance
  locked := true
  createdAt := 0

/-- The canonical stamped element for `seqD`. -/
def tnodeD1 : TextNode where
  id := "d1"
  characters := "A-1"
  sequenceId := "sd"
  stampedValue := "A-1"
  stampedAt := "1"

/-- A copy/paste twin of `tnodeD1` (duplication copies metadata verbatim). -/
def tnodeD2 : TextNode where
  id := "d2"
  characters := "A-1"
  sequenceId := "sd"
  stampedValue := "A-1"
  stampedAt := "1"

/-- A page with only the canonical stamped element. -/
def stateD1 : PluginState where
  sequences := [seqD]
  selectedId := "sd"
  page := Node.container "page" [Node.text tnodeD1]
  selection := [Node.text tnodeD1]

/-- A page where the stamped value is duplicated (Scenario D). -/
def stateD2 : PluginState where
  sequences := [seqD]
  selectedId := "sd"
  page := Node.container "page" [Node.text tnodeD1, Node.text tnodeD2]
  selection := [Node.text tnodeD1]

/-- Witness for C3: without a duplicate the re-stamp is denied unchanged;
with a duplicate on the page it proceeds. -/
theorem C3_restamp_guard_witness :
    handleStamp 9 stateD1 = (stateD1, Out.error "Cannot re-stamp in compliance mode") ∧
    (handleStamp 9 stateD2).2 = Out.stamped "A-2" (stampAdvance seqD) := by
  have h1 := C3_restamp_guard stateD1 9 tnodeD1 seqD rfl rfl rfl rfl rfl
  have h2 := C3_restamp_guard stateD2 9 tnodeD1 seqD rfl rfl rfl rfl rfl
  exact ⟨h1.1 (by decide), h2.2 (by decide)⟩

/- ### Claim C5: the compliance delete guard -/

/-- Claim C5: deleting a sequence found in the store is rejected — with the
linked-element count in the error message and the state unchanged — exactly
when it is compliance-mode and at least one text element of the current
page is linked to it; a compliance sequence with zero linked elements, and
any design-mode sequence, is removed from the persisted collection. -/
theorem C5_delete_guard (st : PluginState) (mid : String) (s : Sequence)
    (hf : findSeq mid st.sequences = some s) :
    (s.mode = SeqMode.compliance →
      (0 < countLinkedNode mid st.page →
        handleDelete mid st = (st, Out.error ("Cannot delete: " ++
          toString (countLinkedNode mid st.page) ++
          " document(s) are linked to this sequence"))) ∧
      (countLinkedNode mid st.page = 0 →
        (handleDelete mid st).1.sequences = st.sequences.filter (fun x => !(x.id == mid)) ∧
        (handleDelete mid st).2 = Out.sequenceDeleted)) ∧
    (s.mode = SeqMode.design →
      (handleDelete mid st).1.sequences = st.sequences.filter (fun x => !(x.id == mid)) ∧
      (handleDelete mid st).2 = Out.sequenceDeleted) := by
  unfold findSeq at hf
  constructor
  · intro hmode
    have hb : (s.mode == SeqMode.compliance) = true := by
      rw [hmode]
      rfl
    constructor
    · intro hcnt
      simp only [handleDelete, hf, hb, eq_self_iff_true, if_true]
      rw [if_pos hcnt]
    · intro hcnt
      simp only [handleDelete, hf, hb, eq_self_iff_true, if_true, hcnt,
        lt_self_iff_false, if_false]
      exact ⟨rfl, rfl⟩
  · intro hmode
    have hb : (s.mode == SeqMode.compliance) = false := by
      rw [hmode]
      rfl
    simp only [handleDelete, hf, hb, Bool.false_eq_true, if_false]
    exact ⟨rfl, rfl⟩

/-- A compliance sequence to delete (Scenario E). -/
def seqE : Sequence where
  id := "se"
  name := "Est"
  pfx := ""
  nextValue := "3"
  highestUsed := "2"
  type := SeqType.number
  mode := SeqMode.compliance
  locked := true
  createdAt := 0

/-- A text element linked to `seqE`. -/
def tnodeE : TextNode where
  id := "e1"
  characters := "2"
  sequenceId := "se"
  stampedValue := "2"
  stampedAt := "2"

/-- `seqE` with zero linked elements on the page. -/
def stateE0 : PluginState where
  sequences := [seqE]
  selectedId := "se"
  page := Node.container "page" []
  selection := []

/-- `seqE` with one linked element on the page. -/
def stateE1 : PluginState where
  sequences := [seqE]
  selectedId := "se"
  page := Node.container "page" [Node.text tnodeE]
  selection := []

/-- Witness for C5 at Scenario E: zero linked elements → deleted; one linked
element → rejected with the count in the message. -/
theorem C5_delete_guard_witness :
    ((handleDelete "se" stateE0).1.sequences = [] ∧
      (handleDelete "se" stateE0).2 = Out.sequenceDeleted) ∧
    handleDelete "se" stateE1 =
      (stateE1, Out.error "Cannot delete: 1 document(s) are linked to this sequence") := by
  have h0 := C5_delete_guard stateE0 "se" seqE rfl
  have h1 := C5_delete_guard stateE1 "se" seqE rfl
  refine ⟨?_, ?_⟩
  · have hz := (h0.1 rfl).2 (by decide)
    refine ⟨?_, hz.2⟩
    rw [hz.1]
    rfl
  · exact (h1.1 rfl).1 (by decide)

/- ### Claim C10: relink does not validate the new id -/

/-- Claim C10: with a single text element selected, `relink` succeeds for
every `newSequenceId` without looking it up in the store: it rewrites only
the `sequenceId` metadata (keeping `stampedValue`, `stampedAt` and the text
content) and posts `relinked`; and if the (nonempty) id does not resolve in
the store, the next selection analysis reports `broken-link` carrying the
preserved `stampedValue`. -/
theorem C10_relink_unchecked (st : PluginState) (t : TextNode)
    (hsel : st.selection = [Node.text t]) :
    (∀ nid, handleRelink nid st =
      (mutateNode t.id (fun x => { x with sequenceId := nid }) st, Out.relinked)) ∧
    (∀ nid, nid ≠ "" → findSeq nid st.sequences = none →
      analyzeSelection (handleRelink nid st).1 =
        SelState.brokenLink t.id t.stampedValue) := by
  have hpart1 : ∀ nid, handleRelink nid st =
      (mutateNode t.id (fun x => { x with sequenceId := nid }) st, Out.relinked) := by
    intro nid
    simp only [handleRelink, hsel]
  refine ⟨hpart1, ?_⟩
  intro nid hne hnone
  unfold findSeq at hnone
  rw [hpart1 nid]
  have hsel' : (mutateNode t.id (fun x => { x with sequenceId := nid }) st).selection =
      [Node.text { t with sequenceId := nid }] := by
    simp only [mutateNode, hsel, List.map_cons, List.map_nil, beq_self_eq_true, if_true]
  have hnb : (nid == "") = false := beq_eq_false_iff_ne.mpr hne
  have hseqs : (mutateNode t.id (fun x => { x with sequenceId := nid }) st).sequences =
      st.sequences := rfl
  simp only [analyzeSelection, hsel', hseqs, hnb, Bool.false_eq_true, if_false, hnone]

/-- A text element whose link points at a dead sequence id. -/
def tnodeR : TextNode where
  id := "r1"
  characters := "X-9"
  sequenceId := "dead"
  stampedValue := "X-9"
  stampedAt := "5"

/-- State with `tnodeR` selected; the store only holds `seqC`. -/
def stateR : PluginState where
  sequences := [seqC]
  selectedId := "sc"
  page := Node.container "page" [Node.text tnodeR]
  selection := [Node.text tnodeR]

/-- Witness for C10: relinking to the unknown id `"ghost"` succeeds and the
next selection analysis reports broken-link with the preserved value. -/
theorem C10_relink_unchecked_witness :
    handleRelink "ghost" stateR =
      (mutateNode "r1" (fun x => { x with sequenceId := "ghost" }) stateR, Out.relinked) ∧
    analyzeSelection (handleRelink "ghost" stateR).1 = SelState.brokenLink "r1" "X-9" := by
  have h := C10_relink_unchecked stateR tnodeR rfl
  exact ⟨h.1 "ghost", h.2 "ghost" (by decide) rfl⟩

/- ### Claim C9: nextValue stays syntactically valid -/

theorem isWS_false_of_upper {c : Char} (h : isUpperCh c = true) : isWS c = false := by
  simp only [isUpperCh, Bool.and_eq_true, decide_eq_true_eq] at h
  simp only [isWS, Bool.or_eq_false_iff]
  refine ⟨⟨⟨char_beq_false ?_, char_beq_false ?_⟩, char_beq_false ?_⟩, char_beq_false ?_⟩ <;>
    simp only [show (' ').toNat = 32 from rfl, show ('\t').toNat = 9 from rfl,
      show ('\n').toNat = 10 from rfl, show ('\r').toNat = 13 from rfl] <;> omega

theorem validValue_jsTrim {t : SeqType} {v : String} (h : validValue t v) :
    jsTrim v = v := by
  cases t with
  | number => exact jsTrim_eq_self fun c hc => isWS_false_of_digit (h.2 c hc)
  | letter => exact jsTrim_eq_self fun c hc => isWS_false_of_upper (h.2 c hc)

theorem incrementLetter_valid {v : String} (h : ∀ c ∈ v.data, isUpperCh c = true) :
    (incrementLetter v).data ≠ [] ∧ ∀ c ∈ (incrementLetter v).data, isUpperCh c = true := by
  have hrev : ∀ c ∈ v.data.reverse, isUpperCh c = true :=
    fun c hc => h c (List.mem_reverse.mp hc)
  obtain ⟨-, hmem⟩ := incLetterRev_correct v.data.reverse hrev
  have hdata : (incrementLetter v).data = (incLetterRev v.data.reverse).reverse := by
    unfold incrementLetter
    rw [map_jsToUpper_eq_self h]
  constructor
  · rw [hdata]
    simp only [ne_eq, List.reverse_eq_nil_iff]
    exact incLetterRev_ne_nil _
  · intro c hc
    rw [hdata, List.mem_reverse] at hc
    exact hmem c hc

/-- The increment engine preserves syntactic validity of `nextValue`. -/
theorem incrementValue_valid {s : Sequence} (h : validValue s.type s.nextValue) :
    validValue s.type (incrementValue s) := by
  cases ht : s.type with
  | number =>
    rw [ht] at h
    obtain ⟨⟨hnil, hdig⟩, -, -⟩ := incrementNumber_digits h.1 h.2
    simp only [incrementValue, ht, validValue]
    exact ⟨hnil, hdig⟩
  | letter =>
    rw [ht] at h
    obtain ⟨hnil, hup⟩ := incrementLetter_valid h.2
    simp only [incrementValue, ht, validValue]
    exact ⟨hnil, hup⟩

theorem mem_setFirst {α : Type} {p : α → Bool} {y x : α} :
    ∀ {l : List α}, x ∈ setFirst p y l → x = y ∨ x ∈ l := by
  intro l
  induction l with
  | nil => intro h; cases h
  | cons a as ih =>
    intro h
    unfold setFirst at h
    rcases hp : p a with _ | _
    · rw [hp] at h
      simp only [Bool.false_eq_true, if_false] at h
      rcases List.mem_cons.mp h with rfl | h
      · exact Or.inr (List.mem_cons_self _ _)
      · rcases ih h with h | h
        · exact Or.inl h
        · exact Or.inr (List.mem_cons_of_mem _ h)
    · rw [hp] at h
      simp only [if_true] at h
      rcases List.mem_cons.mp h with rfl | h
      · exact Or.inl rfl
      · exact Or.inr (List.mem_cons_of_mem _ h)

/-- Modelled from the spec: the message payload validation that lives in the
UI (`__html__`), which is not part of `src/`. The spec requires that the
increment engine "be given only well-formed input" and that a reset value
"only needs to be syntactically valid", so a well-formed message carries a
syntactically valid value for the target sequence's type. -/
def msgOK (m : Msg) (st : PluginState) : Prop :=
  match m with
  | Msg.createSequence _ _ startValue t _ _ _ => validValue t startValue
  | Msg.reset sid v =>
    match findSeq sid st.sequences with
    | some s => validValue s.type v
    | none => True
  | _ => True

/-- Well-formedness of every message along a run, each judged in the state
it is handled in. -/
def okRun : List Msg → PluginState → Prop
  | [], _ => True
  | m :: ms, st => msgOK m st ∧ okRun ms (step m st).1

/-- One well-formed step preserves validity of every persisted `nextValue`. -/
theorem storeValid_step (m : Msg) (st : PluginState) (hok : msgOK m st)
    (h : ∀ s ∈ st.sequences, validValue s.type s.nextValue) :
    ∀ s ∈ (step m st).1.sequences, validValue s.type s.nextValue := by
  cases m with
  | selectSequence i => exact h
  | close => exact h
  | unlink =>
    simp only [step, handleUnlink]
    rcases hsel : st.selection with _ | ⟨n1, rest⟩
    · try simp only [hsel]
      exact h
    · cases n1 <;> cases rest <;> (try simp only [hsel]) <;> exact h
  | relink nid =>
    simp only [step, handleRelink]
    rcases hsel : st.selection with _ | ⟨n1, rest⟩
    · try simp only [hsel]
      exact h
    · cases n1 <;> cases rest <;> (try simp only [hsel]) <;> exact h
  | createSequence n p v t md nid now =>
    simp only [step, handleCreate]
    intro s hs
    rcases List.mem_append.mp hs with hs | hs
    · exact h s hs
    · rw [List.mem_singleton] at hs
      subst hs
      have hv : validValue t v := hok
      show validValue t (jsTrim v)
      rw [validValue_jsTrim hv]
      exact hv
  | deleteSequence mid =>
    simp only [step, handleDelete]
    rcases hf : List.find? (fun x => x.id == mid) st.sequences with _ | sequence
    · try simp only [hf]
      exact h
    · try simp only [hf]
      split
      · split
        · exact h
        · simp only [doDeleteSequence]
          intro s hs
          exact h s (List.mem_of_mem_filter hs)
      · simp only [doDeleteSequence]
        intro s hs
        exact h s (List.mem_of_mem_filter hs)
  | linkAndStamp sid' now =>
    simp only [step, handleLinkAndStamp]
    rcases hsel : st.selection with _ | ⟨n1, rest⟩
    · try simp only [hsel]
      exact h
    · cases n1 with
      | container cid cs =>
        cases rest <;> (try simp only [hsel]) <;> exact h
      | text node =>
        cases rest with
        | cons n2 r2 =>
          try simp only [hsel]
          exact h
        | nil =>
          try simp only [hsel]
          rcases hf : List.find? (fun x => x.id == sid') st.sequences with _ | sequence
          · try simp only [hf]
            exact h
          · try simp only [hf]
            intro s hs
            rcases mem_setFirst hs with rfl | hs
            · have hseq := h sequence (List.mem_of_find?_eq_some hf)
              have hv := incrementValue_valid hseq
              have ht : (lockIfCompliance (stampAdvance sequence)).type = sequence.type := by
                rw [lockIfCompliance_type, stampAdvance_type]
              have hnv : (lockIfCompliance (stampAdvance sequence)).nextValue =
                  incrementValue sequence := by
                rw [lockIfCompliance_nextValue, stampAdvance_nextValue]
              rw [ht, hnv]
              exact hv
            · exact h s hs
  | stamp now =>
    simp only [step, handleStamp]
    rcases hsel : st.selection with _ | ⟨n1, rest⟩
    · try simp only [hsel]
      exact h
    · cases n1 with
      | container cid cs =>
        cases rest <;> (try simp only [hsel]) <;> exact h
      | text node =>
        cases rest with
        | cons n2 r2 =>
          try simp only [hsel]
          exact h
        | nil =>
          try simp only [hsel]
          split
          · exact h
          · rcases hf : List.find? (fun x => x.id == node.sequenceId) st.sequences with _ | sequence
            · try simp only [hf]
              exact h
            · try simp only [hf]
              split
              · exact h
              · intro s hs
                rcases mem_setFirst hs with rfl | hs
                · have hseq := h sequence (List.mem_of_find?_eq_some hf)
                  have hv := incrementValue_valid hseq
                  rw [stampAdvance_type, stampAdvance_nextValue]
                  exact hv
                · exact h s hs
  | reset rsid v =>
    simp only [step, handleReset]
    rcases hf : List.find? (fun x => x.id == rsid) st.sequences with _ | sequence
    · try simp only [hf]
      exact h
    · try simp only [hf]
      split
      · exact h
      · intro s hs
        rcases mem_setFirst hs with rfl | hs
        · have hv : validValue sequence.type v := by
            simp only [msgOK, findSeq, hf] at hok
            exact hok
          show validValue sequence.type (jsTrim v)
          rw [validValue_jsTrim hv]
          exact hv
        · exact h s hs

/-- Claim C9: in every state reachable by well-formed messages from a store
whose sequences all carry syntactically valid `nextValue`s (decimal digits
for `number`, uppercase letters for `letter`), every sequence's `nextValue`
is again syntactically valid — each handler (create, reset in both modes,
the stamps, delete, relink, unlink, select) preserves the invariant. -/
theorem C9_nextValue_valid :
    (∀ (m : Msg) (st : PluginState), msgOK m st →
      (∀ s ∈ st.sequences, validValue s.type s.nextValue) →
      ∀ s ∈ (step m st).1.sequences, validValue s.type s.nextValue) ∧
    (∀ (msgs : List Msg) (st : PluginState), okRun msgs st →
      (∀ s ∈ st.sequences, validValue s.type s.nextValue) →
      ∀ s ∈ (run msgs st).sequences, validValue s.type s.nextValue) := by
  refine ⟨storeValid_step, ?_⟩
  intro msgs
  induction msgs with
  | nil =>
    intro st _ h
    exact h
  | cons m ms ih =>
    intro st hok h
    rw [run]
    exact ih (step m st).1 hok.2 (storeValid_step m st hok.1 h)

/-- The empty plugin state. -/
def stateEmpty : PluginState where
  sequences := []
  selectedId := ""
  page := Node.container "page" []
  selection := []

/-- The sequence produced by creating `"0007"` and then resetting to
`"0100"` in design mode. -/
def seq9 : Sequence where
  id := "s9"
  name := "N"
  pfx := ""
  nextValue := "0100"
  highestUsed := "0"
  type := SeqType.number
  mode := SeqMode.design
  locked := false
  createdAt := 1

/-- Witness for C9: a create followed by a design-mode reset, both with
valid payloads, leaves the stored `nextValue` valid. -/
theorem C9_nextValue_valid_witness :
    validValue seq9.type seq9.nextValue := by
  have h := C9_nextValue_valid
  refine h.2 [Msg.createSequence "N" "" "0007" SeqType.number SeqMode.design "s9" 1,
    Msg.reset "s9" "0100"] stateEmpty ?_ ?_ seq9 ?_
  · refine ⟨?_, ?_, trivial⟩
    · show validValue SeqType.number "0007"
      refine ⟨by decide, by decide⟩
    · show msgOK (Msg.reset "s9" "0100") _
      unfold msgOK
      refine ⟨by decide, by decide⟩
  · intro s hs
    cases hs
  · decide

end Sequencer
